import Mathlib

/-!
Verification development for the Muure-Embedded frame-difference region
planner.  The definitions below are a shallow embedding of the Python code in
`src/diference.py` (`ImageDifference.compare_images`,
`ImageDifference.bbox_has_non_binary_pixels`) and `src/display.py`
(`EInkDisplay.partial_update`).  Machine integers are modelled as `Int`/`Nat`
(Python integers are unbounded, so no wrap-around is needed); Python
exceptions are modelled with `Except`; PIL images are modelled as
width/height plus an intensity function.
-/

namespace Muure

/-- A grayscale image: PIL `Image` in mode `L`.  `pix x y` is the intensity at
column `x`, row `y`; only indices with `x < width`, `y < height` are ever
read by the embedded code. -/
structure Image where
  width : Nat
  height : Nat
  pix : Nat → Nat → Nat

/-- A rectangle `(x, y, w, h)` in pixel coordinates, as returned by
`compare_images` (a Python 4-tuple of ints). -/
structure Region where
  x : Int
  y : Int
  w : Int
  h : Int
deriving DecidableEq, Repr

/-- A block-grid coordinate `(bx, by)`, a Python 2-tuple of ints. -/
abbrev Block := Int × Int

/-- From `diference.py` line 51: two images differ somewhere (scanning y outer,
x inner like the Python loops). -/
def imagesDiffer (a b : Image) : Bool :=
  (List.range a.height).any fun y =>
    (List.range a.width).any fun x => a.pix x y ≠ b.pix x y

/-- From `diference.py` lines 48-54: the set of blocks containing at least one
differing pixel.  The Python code accumulates `(x // block_size,
y // block_size)` into a `set`; we model the set as a deduplicated list.
Only called with `S > 0` (`S = 0` raises `ZeroDivisionError` in Python,
modelled in `compare_images` below). -/
def changedBlockList (a b : Image) (S : Nat) : List Block :=
  (((List.range a.height).flatMap fun y =>
      (List.range a.width).filterMap fun x =>
        if a.pix x y ≠ b.pix x y then
          some (((x / S : Nat) : Int), ((y / S : Nat) : Int))
        else none)).dedup

/-- From `diference.py` lines 60-62: the four 4-connected neighbor blocks, in the
order the Python generator yields them. -/
def neighbors (p : Block) : List Block :=
  [(p.1 + 1, p.2), (p.1 - 1, p.2), (p.1, p.2 + 1), (p.1, p.2 - 1)]

/-- From `diference.py` lines 72-76, one pass of the inner `for` loop: the
neighbors of `c` that are still in `remaining`. -/
def foundNeighbors (c : Block) (remaining : List Block) : List Block :=
  (neighbors c).filter fun n => decide (n ∈ remaining)

/-- From `diference.py` lines 70-76: the inner worklist loop.  Python repeatedly
pops the most recently appended element (`queue.pop()` is LIFO); we model the
same stack discipline with the list head as the stack top, pushing the newly
found neighbors so that the last-appended one is popped first.  Each found
neighbor is simultaneously removed from `remaining` and added to the cluster
and the queue, exactly as in the source.  Returns the final
`(cluster, remaining)`. -/
def bfsLoop (queue cluster remaining : List Block) : List Block × List Block :=
  match queue with
  | [] => (cluster, remaining)
  | c :: qs =>
    bfsLoop ((foundNeighbors c remaining).reverse ++ qs)
      (cluster ++ foundNeighbors c remaining)
      (remaining.filter fun r => decide (r ∉ foundNeighbors c remaining))
termination_by 5 * remaining.length + queue.length
decreasing_by
  simp only [List.length_append, List.length_reverse, List.length_cons]
  have hk : (foundNeighbors c remaining).length ≤ 4 := by
    have h := List.length_filter_le (fun n => decide (n ∈ remaining)) (neighbors c)
    simpa [neighbors] using h
  rcases hfn : foundNeighbors c remaining with _ | ⟨n, ns⟩
  · have h := List.length_filter_le
      (fun r => decide (r ∉ foundNeighbors c remaining)) remaining
    simp only [hfn, List.length_nil] at *
    omega
  · rw [hfn] at hk
    have hnrem : n ∈ remaining := by
      have hnmem : n ∈ foundNeighbors c remaining := hfn ▸ List.mem_cons_self n ns
      have h := List.of_mem_filter hnmem
      simpa using h
    have hlt : (remaining.filter fun r =>
        decide (r ∉ n :: ns)).length < remaining.length := by
      rw [List.length_filter_lt_length_iff_exists]
      exact ⟨n, hnrem, by simp⟩
    omega

/-- From `diference.py` lines 64-76: the outer `while remaining` loop.  Pops a
start block, runs the worklist loop, and returns the list of clusters in the
order they were extracted. -/
def clusterLoop (remaining : List Block) : List (List Block) :=
  match remaining with
  | [] => []
  | start :: rest =>
    (bfsLoop [start] [start] rest).1 :: clusterLoop (bfsLoop [start] [start] rest).2
termination_by remaining.length
decreasing_by
  have key : ∀ q c r, (bfsLoop q c r).2.length ≤ r.length := by
    intro q c r
    induction q, c, r using bfsLoop.induct with
    | case1 c r => simp [bfsLoop]
    | case2 cl rem c qs ih =>
      simp only [bfsLoop]
      have h := List.length_filter_le
        (fun r => decide (r ∉ foundNeighbors c rem)) rem
      omega
  have h := key [c] [c] qs
  simp only [List.length_cons]
  omega

/-- Python `min(f(q) for q in cluster)` over a nonempty list (the `0` default
is never used: clusters are nonempty). -/
def foldMinBy (f : Block → Int) : List Block → Int
  | [] => 0
  | p :: ps => ps.foldl (fun m q => min m (f q)) (f p)

/-- Python `max(f(q) for q in cluster)` over a nonempty list. -/
def foldMaxBy (f : Block → Int) : List Block → Int
  | [] => 0
  | p :: ps => ps.foldl (fun m q => max m (f q)) (f p)

/-- From `diference.py` lines 79-88: extents of the cluster in block coordinates
and the raw pixel-space bounding rectangle `(x0, y0, w, h)`, before the
optional squaring and the padding/clamping. -/
def rawBox (S : Nat) (cluster : List Block) : Int × Int × Int × Int :=
  (foldMinBy Prod.fst cluster * S,
   foldMinBy Prod.snd cluster * S,
   (foldMaxBy Prod.fst cluster - foldMinBy Prod.fst cluster + 1) * S,
   (foldMaxBy Prod.snd cluster - foldMinBy Prod.snd cluster + 1) * S)

/-- From `diference.py` lines 91-95: if `force_square`, expand the smaller of
`w`, `h` to match the larger. -/
def squareBox (force_square : Bool) (b : Int × Int × Int × Int) :
    Int × Int × Int × Int :=
  if force_square then
    if b.2.2.1 > b.2.2.2 then (b.1, b.2.1, b.2.2.1, b.2.2.1)
    else if b.2.2.2 > b.2.2.1 then (b.1, b.2.1, b.2.2.2, b.2.2.2)
    else b
  else b

/-- From `diference.py` lines 97-105: shrink the origin by `padding` (clamped at
0), set the far edge to the clamped origin plus width/height plus
`2*padding`, clamp to the image bounds, and return the resulting
`(x0, y0, x1-x0, y1-y0)`. -/
def padClampBox (padding width height : Nat) (b : Int × Int × Int × Int) :
    Region :=
  let x0 := max 0 (b.1 - padding)
  let y0 := max 0 (b.2.1 - padding)
  let x1 := min (x0 + b.2.2.1 + 2 * padding) (width : Int)
  let y1 := min (y0 + b.2.2.2 + 2 * padding) (height : Int)
  ⟨x0, y0, x1 - x0, y1 - y0⟩

/-- From `diference.py` lines 78-105: pixel-space region produced from one
cluster. -/
def regionOfCluster (S padding : Nat) (force_square : Bool)
    (width height : Nat) (cluster : List Block) : Region :=
  padClampBox padding width height (squareBox force_square (rawBox S cluster))

/-- Python exceptions raised by `compare_images`: the explicit
`ValueError` for mismatched sizes (`diference.py` line 37) and the
`ZeroDivisionError` implicit in `x // block_size` when `block_size = 0`
(line 52, reached only when some pixel differs). -/
inductive DiffError where
  | SizeMismatch : DiffError
  | ZeroDivisionError : DiffError
deriving DecidableEq, Repr

/-- From `diference.py` lines 16-107, `ImageDifference.compare_images`.  The two
images are given already loaded in grayscale.  When no block changed the
cluster loop runs zero times and the empty list is returned, matching the
early `return []` at line 57. -/
def compare_images (a b : Image) (block_size padding : Nat)
    (force_square : Bool) : Except DiffError (List Region) :=
  if ¬ (a.width = b.width ∧ a.height = b.height) then
    .error .SizeMismatch
  else if block_size = 0 ∧ imagesDiffer a b then
    .error .ZeroDivisionError
  else
    .ok ((clusterLoop (changedBlockList a b block_size)).map
      (regionOfCluster block_size padding force_square a.width a.height))

/-- From `diference.py` line 162: binarize at `threshold`
(`255 if p >= threshold else 0`). -/
def pointBW (threshold : Nat) (img : Image) : Image :=
  ⟨img.width, img.height, fun x y => if threshold ≤ img.pix x y then 255 else 0⟩

/-- PIL `ImageFilter.MaxFilter(2*m+1)` on a mode-`L` image.  PIL's
`RankFilter.filter` first calls `image.expand(m, m)`, which replicates the
border pixels, and then takes the window maximum; so the value at `(x, y)` is
the maximum of the image over the window `[x-m, x+m] × [y-m, y+m]` with
coordinates clamped into the image (`Nat` subtraction already clamps at 0). -/
def maxFilter (m : Nat) (img : Image) : Image :=
  ⟨img.width, img.height, fun x y =>
    (((List.range (2 * m + 1)).flatMap fun dy =>
        (List.range (2 * m + 1)).map fun dx =>
          img.pix (min (x + dx - m) (img.width - 1))
            (min (y + dy - m) (img.height - 1)))).foldr max 0⟩

/-- PIL `ImageFilter.MinFilter(2*m+1)`, same border convention as
`maxFilter`.  The fold starts at 255; in `diference.py` this filter is only
applied to the binarized image, whose values are 0 or 255, so the start
value is neutral. -/
def minFilter (m : Nat) (img : Image) : Image :=
  ⟨img.width, img.height, fun x y =>
    (((List.range (2 * m + 1)).flatMap fun dy =>
        (List.range (2 * m + 1)).map fun dx =>
          img.pix (min (x + dx - m) (img.width - 1))
            (min (y + dy - m) (img.height - 1)))).foldr min 255⟩

/-- PIL `ImageChops.difference`: pointwise absolute difference. -/
def chopsDifference (a b : Image) : Image :=
  ⟨a.width, a.height, fun x y =>
    max (a.pix x y) (b.pix x y) - min (a.pix x y) (b.pix x y)⟩

/-- Pillow's `MULDIV255` macro, the rounding `a*b/255` used by
`ImageChops.multiply`: `tmp = a*b + 128; ((tmp >> 8) + tmp) >> 8`. -/
def muldiv255 (a b : Nat) : Nat :=
  ((a * b + 128) / 256 + (a * b + 128)) / 256

/-- PIL `ImageChops.multiply`: pointwise `MULDIV255`. -/
def chopsMultiply (a b : Image) : Image :=
  ⟨a.width, a.height, fun x y => muldiv255 (a.pix x y) (b.pix x y)⟩

/-- From `diference.py` lines 176-179: mask of mid-gray pixels, 255 where
`delta <= v <= 255 - delta`, else 0. -/
def pointMidGray (delta : Nat) (img : Image) : Image :=
  ⟨img.width, img.height, fun x y =>
    if delta ≤ img.pix x y ∧ img.pix x y ≤ 255 - delta then 255 else 0⟩

/-- From `diference.py` line 183: 255 where the edge band is 0, else 0. -/
def pointOutside (img : Image) : Image :=
  ⟨img.width, img.height, fun x y => if 0 < img.pix x y then 0 else 255⟩

/-- PIL `getdata()`: the pixel values as a flat row-major list. -/
def getdata (img : Image) : List Nat :=
  (List.range img.height).flatMap fun y =>
    (List.range img.width).map fun x => img.pix x y

/-- Python `sum(1 for t in data if t > 0)` over `getdata`. -/
def countPos (img : Image) : Nat :=
  ((getdata img).filter fun v => decide (0 < v)).length

/-- From `diference.py` lines 150-159: the bbox clamped to the image bounds and
the resulting crop. -/
def cropClamped (img : Image) (bbox : Region) : Image :=
  let x0 := max 0 bbox.x
  let y0 := max 0 bbox.y
  let x1 := min (x0 + bbox.w) (img.width : Int)
  let y1 := min (y0 + bbox.h) (img.height : Int)
  ⟨(x1 - x0).toNat, (y1 - y0).toNat,
   fun i j => img.pix (x0.toNat + i) (y0.toNat + j)⟩

/-- From `diference.py` lines 161-173: morphological gradient of the binarized
crop (3×3 dilate minus 3×3 erode), expanded by `MaxFilter(2*edge_radius+1)`
when `edge_radius > 0` (the Python `k = max(1, 2*edge_radius+1)` equals
`2*edge_radius+1` there, a window margin of `edge_radius`). -/
def classifierBand (threshold edge_radius : Nat) (region : Image) : Image :=
  let bw := pointBW threshold region
  let band := chopsDifference (maxFilter 1 bw) (minFilter 1 bw)
  if 0 < edge_radius then maxFilter edge_radius band else band

/-- From `diference.py` lines 109-196, `ImageDifference.bbox_has_non_binary_pixels`.
Returns `true` when the region holds a meaningful amount of mid-gray content
away from anti-aliased edges.  Python's float `fraction` is modelled
exactly with `ℚ`. -/
def bbox_has_non_binary_pixels (img : Image) (bbox : Region)
    (threshold delta edge_radius : Nat) (min_fraction : ℚ) : Bool :=
  if bbox.w ≤ 0 ∨ bbox.h ≤ 0 then false
  else
    let x0 := max 0 bbox.x
    let y0 := max 0 bbox.y
    let x1 := min (x0 + bbox.w) (img.width : Int)
    let y1 := min (y0 + bbox.h) (img.height : Int)
    if x1 ≤ x0 ∨ y1 ≤ y0 then false
    else
      let region := cropClamped img bbox
      let edge_band := classifierBand threshold edge_radius region
      let mid_gray := pointMidGray delta region
      let outside_edges := pointOutside edge_band
      let mid_gray_outside := chopsMultiply mid_gray outside_edges
      let valid_area := countPos outside_edges
      if valid_area = 0 then false
      else decide (min_fraction ≤ (countPos mid_gray_outside : ℚ) / valid_area)

/-- The per-region `continue` cases of `display.py`'s partial-update loop,
surfaced as the spec's `OutOfBounds` failure. -/
inductive EncodeError where
  | OutOfBounds : EncodeError
deriving DecidableEq, Repr

/-- The arguments of one `display_Partial` transmission:
`(ax0, y0, ax1, y1)` plus the packed, polarity-inverted bytes. -/
structure Encoded where
  x0 : Int
  y0 : Int
  x1 : Int
  y1 : Int
  bytes : List Nat
deriving DecidableEq, Repr

/-- From `display.py` lines 143-146 (`align_to_bytes`): floor `x0` and ceil `x1`
to multiples of 8 (Python `//` is floor division, `Int.fdiv` here). -/
def align_to_bytes (x0 x1 : Int) : Int × Int :=
  (x0.fdiv 8 * 8, (x1 + 7).fdiv 8 * 8)

/-- One byte of the PIL mode-`1` raster: 8 horizontally consecutive pixels of
row `y` starting at column `x`, MSB first, bit 1 where the thresholded pixel
is white (`p > 127`, `display.py` line 170). -/
def packByte (base : Image) (x y : Nat) : Nat :=
  (List.range 8).foldl
    (fun acc j => 2 * acc + (if 127 < base.pix (x + j) y then 1 else 0)) 0

/-- From `display.py` lines 169-175: the raw raster bytes of the crop
`(ax0, y0, ax1, y1)` (threshold at 127 and pack MSB-first, `wBytes` bytes
per row, row-major), before the polarity inversion. -/
def rawPack (base : Image) (ax0 y0 : Int) (wBytes rows : Nat) : List Nat :=
  (List.range rows).flatMap fun r =>
    (List.range wBytes).map fun bi =>
      packByte base (ax0.toNat + 8 * bi) (y0.toNat + r)

/-- From `display.py` lines 148-189, the body of the per-region loop for one
region: clamp to the panel, align horizontally, threshold/pack/invert.  The
three `continue` cases (degenerate size, empty clamp, empty aligned range)
are modelled as an `OutOfBounds` error that the loop consumes. -/
def encodeRegion (base : Image) (r : Region) (panel_w panel_h : Nat) :
    Except EncodeError Encoded :=
  if r.w ≤ 0 ∨ r.h ≤ 0 then .error .OutOfBounds
  else
    let x0 := max 0 (min r.x panel_w)
    let y0 := max 0 (min r.y panel_h)
    let x1 := max 0 (min (r.x + r.w) panel_w)
    let y1 := max 0 (min (r.y + r.h) panel_h)
    if x1 ≤ x0 ∨ y1 ≤ y0 then .error .OutOfBounds
    else
      let a := align_to_bytes x0 x1
      if a.2 ≤ a.1 then .error .OutOfBounds
      else
        .ok ⟨a.1, y0, a.2, y1,
          (rawPack base a.1 y0 ((a.2 - a.1).fdiv 8).toNat (y1 - y0).toNat).map
            (fun b => b ^^^ 255)⟩

/-- From `display.py` lines 108-198, `EInkDisplay.partial_update` on a base image
already fitted to the panel: the sequence of `display_Partial` transmissions.
A region whose encoding fails is skipped (`continue`) and the remaining
regions are still processed. -/
def partial_update (base : Image) (panel_w panel_h : Nat)
    (regions : List Region) : List Encoded :=
  regions.filterMap fun r => (encodeRegion base r panel_w panel_h).toOption

/-- Scenario A/B reference frame: a 16×16 all-black image. -/
def imgScenA : Image := ⟨16, 16, fun _ _ => 0⟩

/-- Scenario B new frame: `imgScenA` except a 4×4 white square at pixel
origin (8,8). -/
def imgScenB : Image :=
  ⟨16, 16, fun x y => if 8 ≤ x ∧ x < 12 ∧ 8 ≤ y ∧ y < 12 then 255 else 0⟩

/-- A 1×1 all-black image. -/
def imgDot0 : Image := ⟨1, 1, fun _ _ => 0⟩

/-- A 1×1 all-white image. -/
def imgDot255 : Image := ⟨1, 1, fun _ _ => 255⟩

/-- A 2×2 all-black image (every pixel exactly 0). -/
def imgBlack2 : Image := ⟨2, 2, fun _ _ => 0⟩

/-! ### Connectivity of changed blocks (specification side)

The spec describes the cluster loop as computing one region per 4-connected
component of the changed-block set.  `Adj`, `ReachIn` and `IsComponent`
formalize those words; the theorems below relate them to the worklist code
`bfsLoop`/`clusterLoop` embedded above. -/

/-- 4-adjacency of blocks (up/down/left/right neighbors). -/
def Adj (p q : Block) : Prop := q ∈ neighbors p

/-- One connectivity step inside the block set `U`. -/
def Step (U : Set Block) (p q : Block) : Prop := Adj p q ∧ p ∈ U ∧ q ∈ U

/-- Connectivity inside `U`: reflexive-transitive closure of `Step U`. -/
def ReachIn (U : Set Block) : Block → Block → Prop :=
  Relation.ReflTransGen (Step U)

/-- The 4-connected component of `s` inside `U`. -/
def compIn (U : Set Block) (s : Block) : Set Block :=
  fun b => b ∈ U ∧ ReachIn U s b

/-- Holds when `C` is a 4-connected component of `U`. -/
def IsComponent (U : Set Block) (C : Set Block) : Prop :=
  ∃ s ∈ U, C = compIn U s

/-- The member set of a list of blocks. -/
def listSet (l : List Block) : Set Block := fun b => b ∈ l

/-- The number of grid positions `(i, j)` with `i < w`, `j < h` whose pixel
satisfies `p` (the counting vocabulary of the spec's classifier contract). -/
def countPixels (w h : Nat) (p : Nat → Nat → Bool) : Nat :=
  ((List.range h).map fun j => ((List.range w).filter fun i => p i j).length).sum

/-- The spec's clustering contract for a list of returned regions: there is a
list of clusters, one per 4-connected component of the changed-block set `U`
(each cluster is a component, every component occurs, distinct clusters are
disjoint), the regions are exactly the clusters' regions in order, and each
cluster's raw bounding box (before squaring and padding) is
`(minBx*S, minBy*S, (maxBx-minBx+1)*S, (maxBy-minBy+1)*S)` over the
cluster's extents. -/
def OneRegionPerComponent (A : Image) (U : List Block) (S pad : Nat)
    (fs : Bool) (regions : List Region) : Prop :=
  ∃ cs : List (List Block),
    regions = cs.map (regionOfCluster S pad fs A.width A.height) ∧
    (∀ c ∈ cs, c ≠ [] ∧ IsComponent (listSet U) (listSet c)) ∧
    (∀ C : Set Block, IsComponent (listSet U) C → ∃ c ∈ cs, C = listSet c) ∧
    cs.Pairwise (fun c d => ∀ b ∈ c, b ∉ d) ∧
    (∀ c ∈ cs, ∃ mnx mxx mny mxy : Int,
      (∀ p ∈ c, mnx ≤ p.1 ∧ p.1 ≤ mxx ∧ mny ≤ p.2 ∧ p.2 ≤ mxy) ∧
      (∃ p ∈ c, p.1 = mnx) ∧ (∃ p ∈ c, p.1 = mxx) ∧
      (∃ p ∈ c, p.2 = mny) ∧ (∃ p ∈ c, p.2 = mxy) ∧
      rawBox S c = (mnx * S, mny * S, (mxx - mnx + 1) * S, (mxy - mny + 1) * S))

/-- The spec's contract for one successfully encoded region: byte-aligned
horizontal extents containing the clamped region, unchanged vertical
extents, the packed buffer is the raw 127-thresholded MSB-first raster with
every byte inverted, it has exactly `(alignedX1-alignedX)/8 * (y1-y0)`
bytes, and bit `7-j` of the byte for column group `bi` of row `row` is set
iff the underlying pixel is dark (`≤ 127` — the panel's inverted polarity). -/
def EncodedSpec (base : Image) (pw ph : Nat) (r : Region) (e : Encoded) :
    Prop :=
  e.x0 = (max 0 (min r.x pw)).fdiv 8 * 8 ∧
  e.x1 = (max 0 (min (r.x + r.w) pw) + 7).fdiv 8 * 8 ∧
  e.y0 = max 0 (min r.y ph) ∧
  e.y1 = max 0 (min (r.y + r.h) ph) ∧
  e.x0 % 8 = 0 ∧ e.x1 % 8 = 0 ∧
  e.x0 ≤ max 0 (min r.x pw) ∧
  max 0 (min (r.x + r.w) pw) ≤ e.x1 ∧
  e.bytes = (rawPack base e.x0 e.y0 ((e.x1 - e.x0).fdiv 8).toNat
    (e.y1 - e.y0).toNat).map (fun v => v ^^^ 255) ∧
  e.bytes.length = ((e.x1 - e.x0).fdiv 8).toNat * (e.y1 - e.y0).toNat ∧
  (∀ row bi j : Nat, row < (e.y1 - e.y0).toNat →
    bi < ((e.x1 - e.x0).fdiv 8).toNat → j < 8 →
    (e.bytes.getD (row * ((e.x1 - e.x0).fdiv 8).toNat + bi) 0).testBit (7 - j)
      = decide (base.pix (e.x0.toNat + 8 * bi + j) (e.y0.toNat + row) ≤ 127))

/-- The spec's fraction contract for the binary-safety classifier: the
region is flagged as containing meaningful non-binary content exactly when
the share of mid-gray pixels (intensity in `[delta, 255-delta]`) outside the
expanded edge band, among the pixels outside that band, reaches
`min_fraction`; a region that is entirely edge band is safe. -/
def ClassifierFractionSpec (img : Image) (bbox : Region)
    (threshold delta edge_radius : Nat) (min_fraction : ℚ) : Prop :=
  bbox_has_non_binary_pixels img bbox threshold delta edge_radius
      min_fraction = true ↔
    (0 < countPixels (cropClamped img bbox).width
        (cropClamped img bbox).height
        (fun i j => decide ((classifierBand threshold edge_radius
          (cropClamped img bbox)).pix i j = 0)) ∧
     min_fraction ≤
       (countPixels (cropClamped img bbox).width
         (cropClamped img bbox).height
         (fun i j => decide ((classifierBand threshold edge_radius
           (cropClamped img bbox)).pix i j = 0 ∧
           delta ≤ (cropClamped img bbox).pix i j ∧
           (cropClamped img bbox).pix i j + delta ≤ 255)) : ℚ) /
       (countPixels (cropClamped img bbox).width
         (cropClamped img bbox).height
         (fun i j => decide ((classifierBand threshold edge_radius
           (cropClamped img bbox)).pix i j = 0))))


end Muure

namespace Muure

theorem adj_comm (p q : Block) : Adj p q ↔ Adj q p := by
  simp only [Adj, neighbors, List.mem_cons, List.not_mem_nil, or_false,
    Prod.ext_iff]
  omega

theorem step_symm (U : Set Block) : Symmetric (Step U) := by
  intro p q ⟨h1, h2, h3⟩
  exact ⟨(adj_comm p q).1 h1, h3, h2⟩

theorem reachIn_symm (U : Set Block) {a b : Block} (h : ReachIn U a b) :
    ReachIn U b a :=
  Relation.ReflTransGen.symmetric (step_symm U) h

theorem reachIn_mono {U V : Set Block} (hUV : ∀ b, b ∈ U → b ∈ V)
    {a b : Block} (h : ReachIn U a b) : ReachIn V a b :=
  Relation.ReflTransGen.mono (fun x y ⟨h1, h2, h3⟩ => ⟨h1, hUV x h2, hUV y h3⟩) h

theorem reachIn_mem {U : Set Block} {a b : Block} (h : ReachIn U a b)
    (ha : a ∈ U) : b ∈ U := by
  induction h with
  | refl => exact ha
  | tail _ hstep _ => exact hstep.2.2

theorem mem_foundNeighbors {n c : Block} {rem : List Block} :
    n ∈ foundNeighbors c rem ↔ Adj c n ∧ n ∈ rem := by
  simp [foundNeighbors, Adj]

/-- Master invariant lemma for the inner worklist loop.  Starting from a state
where the queue is contained in the cluster, the cluster is disjoint from
`remaining`, blocks of the cluster no longer on the queue have no neighbor in
`remaining`, and every cluster block is reachable from `s` inside `U`, the
final state preserves the total block set, keeps only blocks of `remaining`,
keeps the whole cluster, is disjoint, has no adjacency from the final cluster
into the final remainder, and is made of blocks reachable from `s`. -/
theorem bfsLoop_spec (U : Set Block) (s : Block) :
    ∀ queue cluster remaining : List Block,
    (∀ b ∈ queue, b ∈ cluster) →
    (∀ b ∈ cluster, b ∉ remaining) →
    (∀ c ∈ cluster, c ∉ queue → ∀ n, Adj c n → n ∉ remaining) →
    (∀ b ∈ cluster, b ∈ U ∧ ReachIn U s b) →
    (∀ b ∈ remaining, b ∈ U) →
    ((∀ b : Block,
        (b ∈ (bfsLoop queue cluster remaining).1 ∨
         b ∈ (bfsLoop queue cluster remaining).2) ↔
        (b ∈ cluster ∨ b ∈ remaining))
     ∧ (∀ b ∈ (bfsLoop queue cluster remaining).2, b ∈ remaining)
     ∧ (∀ b ∈ cluster, b ∈ (bfsLoop queue cluster remaining).1)
     ∧ (∀ b ∈ (bfsLoop queue cluster remaining).1,
          b ∉ (bfsLoop queue cluster remaining).2)
     ∧ (∀ c ∈ (bfsLoop queue cluster remaining).1, ∀ n, Adj c n →
          n ∉ (bfsLoop queue cluster remaining).2)
     ∧ (∀ b ∈ (bfsLoop queue cluster remaining).1, b ∈ U ∧ ReachIn U s b)) := by
  intro queue cluster remaining
  induction queue, cluster, remaining using bfsLoop.induct with
  | case1 cl rem =>
    intro _ hdisj hclosed hreach _
    rw [bfsLoop.eq_def]
    refine ⟨fun b => Iff.rfl, fun b hb => hb, fun b hb => hb, hdisj, ?_, hreach⟩
    exact fun c hc n hadj => hclosed c hc (List.not_mem_nil c) n hadj
  | case2 cl rem c qs ih =>
    intro hqc hdisj hclosed hreach hrem
    have hcclu : c ∈ cl := hqc c (List.mem_cons_self c qs)
    have hcU : c ∈ U := (hreach c hcclu).1
    have hcreach : ReachIn U s c := (hreach c hcclu).2
    -- establish the invariants for the successor state
    have hqc' : ∀ b ∈ (foundNeighbors c rem).reverse ++ qs,
        b ∈ cl ++ foundNeighbors c rem := by
      intro b hb
      rcases List.mem_append.1 hb with hb | hb
      · exact List.mem_append.2 (Or.inr (List.mem_reverse.1 hb))
      · exact List.mem_append.2 (Or.inl (hqc b (List.mem_cons_of_mem c hb)))
    have hdisj' : ∀ b ∈ cl ++ foundNeighbors c rem,
        b ∉ List.filter (fun r => decide (r ∉ foundNeighbors c rem)) rem := by
      intro b hb hmem
      have h2 := List.of_mem_filter hmem
      rcases List.mem_append.1 hb with hb | hb
      · exact hdisj b hb (List.mem_of_mem_filter hmem)
      · simp only [decide_eq_true_eq] at h2
        exact h2 hb
    have hclosed' : ∀ d ∈ cl ++ foundNeighbors c rem,
        d ∉ (foundNeighbors c rem).reverse ++ qs → ∀ n, Adj d n →
        n ∉ List.filter (fun r => decide (r ∉ foundNeighbors c rem)) rem := by
      intro d hd hdq n hadj hn
      have hnrem : n ∈ rem := List.mem_of_mem_filter hn
      have hnfn : n ∉ foundNeighbors c rem := by
        have h2 := List.of_mem_filter hn
        simpa using h2
      rcases List.mem_append.1 hd with hd | hd
      · by_cases hdc : d = c
        · subst hdc
          exact hnfn (mem_foundNeighbors.2 ⟨hadj, hnrem⟩)
        · have hdq2 : d ∉ c :: qs := by
            intro hcon
            rcases List.mem_cons.1 hcon with h | h
            · exact hdc h
            · exact hdq (List.mem_append.2 (Or.inr h))
          exact hclosed d hd hdq2 n hadj hnrem
      · exact hdq (List.mem_append.2 (Or.inl (List.mem_reverse.2 hd)))
    have hreach' : ∀ b ∈ cl ++ foundNeighbors c rem, b ∈ U ∧ ReachIn U s b := by
      intro b hb
      rcases List.mem_append.1 hb with hb | hb
      · exact hreach b hb
      · rcases mem_foundNeighbors.1 hb with ⟨hadj, hbrem⟩
        have hbU : b ∈ U := hrem b hbrem
        exact ⟨hbU, Relation.ReflTransGen.tail hcreach ⟨hadj, hcU, hbU⟩⟩
    have hrem' : ∀ b ∈ List.filter
        (fun r => decide (r ∉ foundNeighbors c rem)) rem, b ∈ U :=
      fun b hb => hrem b (List.mem_of_mem_filter hb)
    have ihres := ih hqc' hdisj' hclosed' hreach' hrem'
    -- rewrite the loop one step
    have hstep : bfsLoop (c :: qs) cl rem =
        bfsLoop ((foundNeighbors c rem).reverse ++ qs)
          (cl ++ foundNeighbors c rem)
          (List.filter (fun r => decide (r ∉ foundNeighbors c rem)) rem) := by
      rw [bfsLoop.eq_def]
    rw [hstep]
    obtain ⟨i1, i2, i3, i4, i5, i6⟩ := ihres
    refine ⟨?_, ?_, ?_, i4, i5, i6⟩
    · intro b
      rw [i1 b]
      constructor
      · intro hb
        rcases hb with hb | hb
        · rcases List.mem_append.1 hb with hb | hb
          · exact Or.inl hb
          · exact Or.inr (mem_foundNeighbors.1 hb).2
        · exact Or.inr (List.mem_of_mem_filter hb)
      · intro hb
        rcases hb with hb | hb
        · exact Or.inl (List.mem_append.2 (Or.inl hb))
        · by_cases hfn : b ∈ foundNeighbors c rem
          · exact Or.inl (List.mem_append.2 (Or.inr hfn))
          · refine Or.inr (List.mem_filter.2 ⟨hb, ?_⟩)
            simpa using hfn
    · exact fun b hb => List.mem_of_mem_filter (i2 b hb)
    · exact fun b hb => i3 b (List.mem_append.2 (Or.inl hb))

theorem bfsLoop_snd_sublist :
    ∀ queue cluster remaining : List Block,
    (bfsLoop queue cluster remaining).2.Sublist remaining := by
  intro queue cluster remaining
  induction queue, cluster, remaining using bfsLoop.induct with
  | case1 cl rem =>
    rw [bfsLoop.eq_def]
  | case2 cl rem c qs ih =>
    have hstep : bfsLoop (c :: qs) cl rem =
        bfsLoop ((foundNeighbors c rem).reverse ++ qs)
          (cl ++ foundNeighbors c rem)
          (List.filter (fun r => decide (r ∉ foundNeighbors c rem)) rem) := by
      rw [bfsLoop.eq_def]
    rw [hstep]
    exact ih.trans (List.filter_sublist rem)

/-- Blocks connected inside `U` have the same component. -/
theorem compIn_congr {U : Set Block} {s t : Block} (h : ReachIn U s t) :
    compIn U s = compIn U t := by
  ext b
  constructor
  · intro ⟨hbU, hr⟩
    exact ⟨hbU, Relation.ReflTransGen.trans (reachIn_symm U h) hr⟩
  · intro ⟨hbU, hr⟩
    exact ⟨hbU, Relation.ReflTransGen.trans h hr⟩

/-- Removing a whole component does not change connectivity among the
remaining blocks. -/
theorem reachIn_sdiff (U : Set Block) (s : Block) {t b : Block}
    (ht : t ∈ U) (htc : ¬ ReachIn U s t) :
    ReachIn (fun x => x ∈ U ∧ x ∉ compIn U s) t b ↔ ReachIn U t b := by
  have htV : t ∈ U ∧ t ∉ compIn U s := ⟨ht, fun hc => htc hc.2⟩
  constructor
  · exact reachIn_mono (fun x hx => hx.1)
  · intro h
    induction h with
    | refl => exact Relation.ReflTransGen.refl
    | tail hchain hstep ih =>
      rename_i m b2
      have hmV : m ∈ U ∧ m ∉ compIn U s := reachIn_mem ih htV
      have hb2V : b2 ∈ U ∧ b2 ∉ compIn U s := by
        refine ⟨hstep.2.2, fun hc => ?_⟩
        have h1 : ReachIn U s m :=
          Relation.ReflTransGen.trans hc.2
            (Relation.ReflTransGen.single (step_symm U hstep))
        have h2 : ReachIn U m t := reachIn_symm U hchain
        exact htc (Relation.ReflTransGen.trans h1 h2)
      exact Relation.ReflTransGen.tail ih ⟨hstep.1, hmV, hb2V⟩

theorem clusterLoop_nil : clusterLoop [] = [] := by
  rw [clusterLoop.eq_def]

theorem clusterLoop_cons (p : Block) (rest : List Block) :
    clusterLoop (p :: rest) =
      (bfsLoop [p] [p] rest).1 :: clusterLoop (bfsLoop [p] [p] rest).2 := by
  rw [clusterLoop.eq_def]

/-- Connectivity components of `U` minus one component are exactly the
components taken inside the smaller universe. -/
theorem compIn_sdiff_eq (U : Set Block) (s t : Block) (htU : t ∈ U)
    (htnr : ¬ ReachIn U s t) :
    compIn (fun x => x ∈ U ∧ x ∉ compIn U s) t = compIn U t := by
  ext b
  constructor
  · intro ⟨hbV, hr⟩
    exact ⟨hbV.1, (reachIn_sdiff U s htU htnr).1 hr⟩
  · intro ⟨hbU, hr⟩
    refine ⟨⟨hbU, fun hc => ?_⟩, (reachIn_sdiff U s htU htnr).2 hr⟩
    exact htnr (Relation.ReflTransGen.trans hc.2 (reachIn_symm U hr))

/-- Master lemma for the outer cluster loop: on a duplicate-free block list,
each extracted cluster is a nonempty subset of the list whose member set is
a 4-connected component of the list's member set; every listed block lands
in some cluster; every component is some cluster's member set; and distinct
clusters are disjoint. -/
theorem clusterLoop_spec :
    ∀ L : List Block, L.Nodup →
    (∀ c ∈ clusterLoop L, c ≠ [] ∧ (∀ b ∈ c, b ∈ L) ∧
       IsComponent (listSet L) (listSet c))
    ∧ (∀ b ∈ L, ∃ c ∈ clusterLoop L, b ∈ c)
    ∧ (∀ C : Set Block, IsComponent (listSet L) C →
         ∃ c ∈ clusterLoop L, C = listSet c)
    ∧ (clusterLoop L).Pairwise (fun c d => ∀ b ∈ c, b ∉ d) := by
  intro L
  induction L using clusterLoop.induct with
  | case1 =>
    intro _
    rw [clusterLoop_nil]
    refine ⟨?_, ?_, ?_, List.Pairwise.nil⟩
    · intro c hc; exact absurd hc (List.not_mem_nil c)
    · intro b hb; exact absurd hb (List.not_mem_nil b)
    · intro C hC
      obtain ⟨t, htL, _⟩ := hC
      exact absurd htL (List.not_mem_nil t)
  | case2 start rest ih =>
    intro hnd
    obtain ⟨hnd1, hnd2⟩ := List.nodup_cons.1 hnd
    obtain ⟨i1, i2, i3, i4, i5, i6⟩ :=
      bfsLoop_spec (listSet (start :: rest)) start [start] [start] rest
        (fun b hb => hb)
        (fun b hb => by
          rw [List.mem_singleton.1 hb]; exact hnd1)
        (fun c hc hq _ _ => absurd hc hq)
        (fun b hb => by
          rw [List.mem_singleton.1 hb]
          exact ⟨List.mem_cons_self start rest, Relation.ReflTransGen.refl⟩)
        (fun b hb => List.mem_cons_of_mem start hb)
    have hUiff : ∀ b : Block, b ∈ listSet (start :: rest) ↔
        (b ∈ [start] ∨ b ∈ rest) := by
      intro b
      show b ∈ start :: rest ↔ _
      simp [List.mem_cons, List.mem_singleton]
    have hin1 : ∀ b : Block,
        b ∈ (bfsLoop [start] [start] rest).1 → b ∈ start :: rest := by
      intro b hb
      exact (hUiff b).2 ((i1 b).1 (Or.inl hb))
    have hstartcl : start ∈ (bfsLoop [start] [start] rest).1 :=
      i3 start (List.mem_singleton.2 rfl)
    have F1 : ∀ b : Block, b ∈ (bfsLoop [start] [start] rest).1 ↔
        b ∈ compIn (listSet (start :: rest)) start := by
      intro b
      constructor
      · intro hb; exact ⟨(i6 b hb).1, (i6 b hb).2⟩
      · rintro ⟨hbU, hr⟩
        clear hbU
        induction hr with
        | refl => exact hstartcl
        | tail hchain hstep ihh =>
          rename_i m b2
          have hb2 : b2 ∈ (bfsLoop [start] [start] rest).1 ∨
              b2 ∈ (bfsLoop [start] [start] rest).2 :=
            (i1 b2).2 ((hUiff b2).1 hstep.2.2)
          rcases hb2 with hb2 | hb2
          · exact hb2
          · exact absurd hb2 (i5 m ihh b2 hstep.1)
    have F2 : listSet (bfsLoop [start] [start] rest).2 =
        (fun x => x ∈ listSet (start :: rest) ∧
          x ∉ compIn (listSet (start :: rest)) start) := by
      ext b
      constructor
      · intro hb
        refine ⟨(hUiff b).2 (Or.inr (i2 b hb)), fun hc => ?_⟩
        exact i4 b ((F1 b).2 hc) hb
      · rintro ⟨hbU, hnc⟩
        rcases (i1 b).2 ((hUiff b).1 hbU) with hb | hb
        · exact absurd ((F1 b).1 hb) hnc
        · exact hb
    have hrm1nd : (bfsLoop [start] [start] rest).2.Nodup :=
      (bfsLoop_snd_sublist [start] [start] rest).nodup hnd2
    obtain ⟨j1, j2, j3, j4⟩ := ih hrm1nd
    rw [clusterLoop_cons]
    have hsubL : ∀ c ∈ clusterLoop (bfsLoop [start] [start] rest).2,
        ∀ b ∈ c, b ∈ start :: rest := by
      intro c hc b hb
      exact List.mem_cons_of_mem start (i2 b ((j1 c hc).2.1 b hb))
    refine ⟨?_, ?_, ?_, ?_⟩
    · intro c hc
      rcases List.mem_cons.1 hc with hc | hc
      · subst hc
        refine ⟨List.ne_nil_of_mem hstartcl, hin1, start,
          List.mem_cons_self start rest, ?_⟩
        ext b; exact F1 b
      · obtain ⟨hne, hsub, t, htV, hCeq⟩ := j1 c hc
        have htV2 : t ∈ listSet (start :: rest) ∧
            t ∉ compIn (listSet (start :: rest)) start := by
          have h2 := htV
          rw [F2] at h2
          exact h2
        have htnr : ¬ ReachIn (listSet (start :: rest)) start t :=
          fun hr => htV2.2 ⟨htV2.1, hr⟩
        refine ⟨hne, fun b hb => hsubL c hc b hb, t, htV2.1, ?_⟩
        rw [hCeq, F2, compIn_sdiff_eq _ _ _ htV2.1 htnr]
    · intro b hb
      rcases List.mem_cons.1 hb with hb | hb
      · subst hb
        exact ⟨(bfsLoop [b] [b] rest).1, List.mem_cons_self _ _, hstartcl⟩
      · rcases (i1 b).2 (Or.inr hb) with hbc | hbc
        · exact ⟨(bfsLoop [start] [start] rest).1, List.mem_cons_self _ _, hbc⟩
        · obtain ⟨c, hc, hbc2⟩ := j2 b hbc
          exact ⟨c, List.mem_cons_of_mem _ hc, hbc2⟩
    · intro C hC
      obtain ⟨t, htU, hCeq⟩ := hC
      rcases (i1 t).2 ((hUiff t).1 htU) with htc | htc
      · refine ⟨(bfsLoop [start] [start] rest).1, List.mem_cons_self _ _, ?_⟩
        rw [hCeq, ← compIn_congr (i6 t htc).2]
        ext b; exact (F1 b).symm
      · have htV2 : t ∈ listSet (start :: rest) ∧
            t ∉ compIn (listSet (start :: rest)) start := by
          have h2 : t ∈ listSet (bfsLoop [start] [start] rest).2 := htc
          rw [F2] at h2
          exact h2
        have htnr : ¬ ReachIn (listSet (start :: rest)) start t :=
          fun hr => htV2.2 ⟨htV2.1, hr⟩
        have hcompV : IsComponent (listSet (bfsLoop [start] [start] rest).2)
            (compIn (listSet (bfsLoop [start] [start] rest).2) t) :=
          ⟨t, htc, rfl⟩
        obtain ⟨c, hc, heq⟩ := j3 _ hcompV
        refine ⟨c, List.mem_cons_of_mem _ hc, ?_⟩
        rw [hCeq, ← heq, F2, compIn_sdiff_eq _ _ _ htV2.1 htnr]
    · refine List.pairwise_cons.2 ⟨?_, j4⟩
      intro d hd b hb hbd
      exact i4 b hb ((j1 d hd).2.1 b hbd)

theorem foldl_min_facts (f : Block → Int) :
    ∀ (l : List Block) (a : Int),
      (l.foldl (fun m q => min m (f q)) a = a ∨
        ∃ q ∈ l, l.foldl (fun m q => min m (f q)) a = f q) ∧
      l.foldl (fun m q => min m (f q)) a ≤ a ∧
      ∀ q ∈ l, l.foldl (fun m q => min m (f q)) a ≤ f q := by
  intro l
  induction l with
  | nil =>
    intro a
    exact ⟨Or.inl rfl, le_refl a, fun q hq => absurd hq (List.not_mem_nil q)⟩
  | cons p ps ih =>
    intro a
    simp only [List.foldl_cons]
    obtain ⟨h1, h2, h3⟩ := ih (min a (f p))
    refine ⟨?_, h2.trans (min_le_left a (f p)), ?_⟩
    · rcases h1 with h1 | ⟨q, hq, hfq⟩
      · rcases min_choice a (f p) with hm | hm
        · exact Or.inl (h1.trans hm)
        · exact Or.inr ⟨p, List.mem_cons_self p ps, h1.trans hm⟩
      · exact Or.inr ⟨q, List.mem_cons_of_mem p hq, hfq⟩
    · intro q hq
      rcases List.mem_cons.1 hq with hq | hq
      · rw [hq]
        exact h2.trans (min_le_right a (f p))
      · exact h3 q hq

theorem foldl_max_facts (f : Block → Int) :
    ∀ (l : List Block) (a : Int),
      (l.foldl (fun m q => max m (f q)) a = a ∨
        ∃ q ∈ l, l.foldl (fun m q => max m (f q)) a = f q) ∧
      a ≤ l.foldl (fun m q => max m (f q)) a ∧
      ∀ q ∈ l, f q ≤ l.foldl (fun m q => max m (f q)) a := by
  intro l
  induction l with
  | nil =>
    intro a
    exact ⟨Or.inl rfl, le_refl a, fun q hq => absurd hq (List.not_mem_nil q)⟩
  | cons p ps ih =>
    intro a
    simp only [List.foldl_cons]
    obtain ⟨h1, h2, h3⟩ := ih (max a (f p))
    refine ⟨?_, (le_max_left a (f p)).trans h2, ?_⟩
    · rcases h1 with h1 | ⟨q, hq, hfq⟩
      · rcases max_choice a (f p) with hm | hm
        · exact Or.inl (h1.trans hm)
        · exact Or.inr ⟨p, List.mem_cons_self p ps, h1.trans hm⟩
      · exact Or.inr ⟨q, List.mem_cons_of_mem p hq, hfq⟩
    · intro q hq
      rcases List.mem_cons.1 hq with hq | hq
      · rw [hq]
        exact (le_max_right a (f p)).trans h2
      · exact h3 q hq

theorem foldMinBy_le (f : Block → Int) {l : List Block} {q : Block}
    (hq : q ∈ l) : foldMinBy f l ≤ f q := by
  cases l with
  | nil => exact absurd hq (List.not_mem_nil q)
  | cons p ps =>
    rcases List.mem_cons.1 hq with h | h
    · rw [h]
      exact (foldl_min_facts f ps (f p)).2.1
    · exact (foldl_min_facts f ps (f p)).2.2 q h

theorem le_foldMaxBy (f : Block → Int) {l : List Block} {q : Block}
    (hq : q ∈ l) : f q ≤ foldMaxBy f l := by
  cases l with
  | nil => exact absurd hq (List.not_mem_nil q)
  | cons p ps =>
    rcases List.mem_cons.1 hq with h | h
    · rw [h]
      exact (foldl_max_facts f ps (f p)).2.1
    · exact (foldl_max_facts f ps (f p)).2.2 q h

theorem exists_foldMinBy_eq (f : Block → Int) {l : List Block} (h : l ≠ []) :
    ∃ q ∈ l, foldMinBy f l = f q := by
  cases l with
  | nil => exact absurd rfl h
  | cons p ps =>
    rcases (foldl_min_facts f ps (f p)).1 with h1 | ⟨q, hq, hfq⟩
    · exact ⟨p, List.mem_cons_self p ps, h1⟩
    · exact ⟨q, List.mem_cons_of_mem p hq, hfq⟩

theorem exists_foldMaxBy_eq (f : Block → Int) {l : List Block} (h : l ≠ []) :
    ∃ q ∈ l, foldMaxBy f l = f q := by
  cases l with
  | nil => exact absurd rfl h
  | cons p ps =>
    rcases (foldl_max_facts f ps (f p)).1 with h1 | ⟨q, hq, hfq⟩
    · exact ⟨p, List.mem_cons_self p ps, h1⟩
    · exact ⟨q, List.mem_cons_of_mem p hq, hfq⟩

theorem mem_changedBlockList {a b : Image} {S : Nat} {p : Block} :
    p ∈ changedBlockList a b S ↔
    ∃ x, x < a.width ∧ ∃ y, y < a.height ∧ a.pix x y ≠ b.pix x y ∧
      p = (((x / S : Nat) : Int), ((y / S : Nat) : Int)) := by
  unfold changedBlockList
  rw [List.mem_dedup, List.mem_flatMap]
  constructor
  · rintro ⟨y, hy, hmem⟩
    rw [List.mem_filterMap] at hmem
    obtain ⟨x, hx, hopt⟩ := hmem
    rw [List.mem_range] at hy hx
    by_cases hne : a.pix x y ≠ b.pix x y
    · rw [if_pos hne] at hopt
      exact ⟨x, hx, y, hy, hne, (Option.some_inj.1 hopt).symm⟩
    · rw [if_neg hne] at hopt
      exact absurd hopt (Option.noConfusion)
  · rintro ⟨x, hx, y, hy, hne, hp⟩
    refine ⟨y, List.mem_range.2 hy, ?_⟩
    rw [List.mem_filterMap]
    exact ⟨x, List.mem_range.2 hx, by rw [if_pos hne, hp]⟩

theorem changedBlockList_nodup (a b : Image) (S : Nat) :
    (changedBlockList a b S).Nodup :=
  List.nodup_dedup _

theorem compare_images_ok {a b : Image} {S pad : Nat} {fs : Bool}
    (hw : a.width = b.width) (hh : a.height = b.height) (hS : 0 < S) :
    compare_images a b S pad fs =
      .ok ((clusterLoop (changedBlockList a b S)).map
        (regionOfCluster S pad fs a.width a.height)) := by
  have hS0 : S ≠ 0 := Nat.pos_iff_ne_zero.1 hS
  simp [compare_images, hw, hh, hS0]

theorem squareBox_spec (fs : Bool) (bx : Int × Int × Int × Int) :
    (squareBox fs bx).1 = bx.1 ∧ (squareBox fs bx).2.1 = bx.2.1 ∧
    bx.2.2.1 ≤ (squareBox fs bx).2.2.1 ∧ bx.2.2.2 ≤ (squareBox fs bx).2.2.2 := by
  unfold squareBox
  rcases fs with _ | _
  · simp
  · simp only [if_true]
    split_ifs with h1 h2 <;> simp <;> omega

/-- Numeric facts about the block-coordinate extents of a cluster of changed
blocks: extents are nonnegative, ordered, and the minimal block's pixel
origin lies strictly inside the image. -/
theorem cluster_extents {A B : Image} {S : Nat} (hS : 0 < S)
    {c : List Block} (hne : c ≠ [])
    (hsub : ∀ p ∈ c, p ∈ changedBlockList A B S) :
    0 ≤ foldMinBy Prod.fst c ∧
    foldMinBy Prod.fst c ≤ foldMaxBy Prod.fst c ∧
    foldMinBy Prod.fst c * S < A.width ∧
    0 ≤ foldMinBy Prod.snd c ∧
    foldMinBy Prod.snd c ≤ foldMaxBy Prod.snd c ∧
    foldMinBy Prod.snd c * S < A.height := by
  obtain ⟨q1, hq1, hq1e⟩ := exists_foldMinBy_eq Prod.fst hne
  obtain ⟨q2, hq2, hq2e⟩ := exists_foldMaxBy_eq Prod.fst hne
  obtain ⟨q3, hq3, hq3e⟩ := exists_foldMinBy_eq Prod.snd hne
  obtain ⟨q4, hq4, hq4e⟩ := exists_foldMaxBy_eq Prod.snd hne
  obtain ⟨x1, hx1, y1, hy1, -, hq1p⟩ := mem_changedBlockList.1 (hsub q1 hq1)
  obtain ⟨x3, hx3, y3, hy3, -, hq3p⟩ := mem_changedBlockList.1 (hsub q3 hq3)
  have hmnx : foldMinBy Prod.fst c = ((x1 / S : Nat) : Int) := by
    rw [hq1e, hq1p]
  have hmny : foldMinBy Prod.snd c = ((y3 / S : Nat) : Int) := by
    rw [hq3e, hq3p]
  refine ⟨by rw [hmnx]; exact_mod_cast Nat.zero_le _, ?_, ?_,
    by rw [hmny]; exact_mod_cast Nat.zero_le _, ?_, ?_⟩
  · rw [hq2e]
    exact foldMinBy_le Prod.fst hq2
  · rw [hmnx]
    have h1 : (x1 / S) * S ≤ x1 := Nat.div_mul_le_self x1 S
    have h2 : ((x1 / S : Nat) : Int) * (S : Int) ≤ (x1 : Int) := by
      exact_mod_cast h1
    have h3 : (x1 : Int) < (A.width : Int) := by exact_mod_cast hx1
    omega
  · rw [hq4e]
    exact foldMinBy_le Prod.snd hq4
  · rw [hmny]
    have h1 : (y3 / S) * S ≤ y3 := Nat.div_mul_le_self y3 S
    have h2 : ((y3 / S : Nat) : Int) * (S : Int) ≤ (y3 : Int) := by
      exact_mod_cast h1
    have h3 : (y3 : Int) < (A.height : Int) := by exact_mod_cast hy3
    omega

theorem regionOfCluster_eq (S pad : Nat) (fs : Bool) (W H : Nat)
    (c : List Block) :
    regionOfCluster S pad fs W H c =
      ⟨max 0 ((squareBox fs (rawBox S c)).1 - pad),
       max 0 ((squareBox fs (rawBox S c)).2.1 - pad),
       min (max 0 ((squareBox fs (rawBox S c)).1 - pad) +
           (squareBox fs (rawBox S c)).2.2.1 + 2 * pad) W
         - max 0 ((squareBox fs (rawBox S c)).1 - pad),
       min (max 0 ((squareBox fs (rawBox S c)).2.1 - pad) +
           (squareBox fs (rawBox S c)).2.2.2 + 2 * pad) H
         - max 0 ((squareBox fs (rawBox S c)).2.1 - pad)⟩ := rfl

/-- Every region built from a nonempty cluster of changed blocks has positive
width and height and lies inside `[0, width) × [0, height)`. -/
theorem regionOfCluster_bounds {A B : Image} {S pad : Nat} {fs : Bool}
    (hS : 0 < S) {c : List Block} (hne : c ≠ [])
    (hsub : ∀ p ∈ c, p ∈ changedBlockList A B S) :
    0 ≤ (regionOfCluster S pad fs A.width A.height c).x ∧
    0 < (regionOfCluster S pad fs A.width A.height c).w ∧
    (regionOfCluster S pad fs A.width A.height c).x +
      (regionOfCluster S pad fs A.width A.height c).w ≤ A.width ∧
    0 ≤ (regionOfCluster S pad fs A.width A.height c).y ∧
    0 < (regionOfCluster S pad fs A.width A.height c).h ∧
    (regionOfCluster S pad fs A.width A.height c).y +
      (regionOfCluster S pad fs A.width A.height c).h ≤ A.height := by
  obtain ⟨e1, e2, e3, e4, e5, e6⟩ := cluster_extents hS hne hsub
  obtain ⟨s1, s2, s3, s4⟩ := squareBox_spec fs (rawBox S c)
  have r1 : (rawBox S c).1 = foldMinBy Prod.fst c * S := rfl
  have r2 : (rawBox S c).2.1 = foldMinBy Prod.snd c * S := rfl
  have r3 : (rawBox S c).2.2.1 =
      (foldMaxBy Prod.fst c - foldMinBy Prod.fst c + 1) * S := rfl
  have r4 : (rawBox S c).2.2.2 =
      (foldMaxBy Prod.snd c - foldMinBy Prod.snd c + 1) * S := rfl
  rw [r1] at s1
  rw [r2] at s2
  rw [r3] at s3
  rw [r4] at s4
  have p1 : 0 ≤ foldMinBy Prod.fst c * (S : Int) :=
    mul_nonneg e1 (by exact_mod_cast Nat.zero_le S)
  have p2 : 0 ≤ foldMinBy Prod.snd c * (S : Int) :=
    mul_nonneg e4 (by exact_mod_cast Nat.zero_le S)
  have hS1 : (1 : Int) ≤ S := by exact_mod_cast hS
  have p3 : (S : Int) ≤
      (foldMaxBy Prod.fst c - foldMinBy Prod.fst c + 1) * S := by
    have h1 : (1 : Int) ≤ foldMaxBy Prod.fst c - foldMinBy Prod.fst c + 1 := by
      omega
    calc (S : Int) = 1 * S := (one_mul _).symm
    _ ≤ _ := mul_le_mul_of_nonneg_right h1 (by exact_mod_cast Nat.zero_le S)
  have p4 : (S : Int) ≤
      (foldMaxBy Prod.snd c - foldMinBy Prod.snd c + 1) * S := by
    have h1 : (1 : Int) ≤ foldMaxBy Prod.snd c - foldMinBy Prod.snd c + 1 := by
      omega
    calc (S : Int) = 1 * S := (one_mul _).symm
    _ ≤ _ := mul_le_mul_of_nonneg_right h1 (by exact_mod_cast Nat.zero_le S)
  rw [regionOfCluster_eq]
  dsimp only
  rw [s1, s2]
  omega

/-- Every region built from a cluster covers the clamped pixel footprint of
each of the cluster's blocks. -/
theorem regionOfCluster_covers {A B : Image} {S pad : Nat} {fs : Bool}
    (hS : 0 < S) {c : List Block} (hne : c ≠ [])
    (hsub : ∀ p ∈ c, p ∈ changedBlockList A B S)
    {p : Block} (hp : p ∈ c) {px py : Int}
    (hpx1 : p.1 * S ≤ px) (hpx2 : px < (p.1 + 1) * S)
    (hpx3 : 0 ≤ px) (hpx4 : px < A.width)
    (hpy1 : p.2 * S ≤ py) (hpy2 : py < (p.2 + 1) * S)
    (hpy3 : 0 ≤ py) (hpy4 : py < A.height) :
    (regionOfCluster S pad fs A.width A.height c).x ≤ px ∧
    px < (regionOfCluster S pad fs A.width A.height c).x +
      (regionOfCluster S pad fs A.width A.height c).w ∧
    (regionOfCluster S pad fs A.width A.height c).y ≤ py ∧
    py < (regionOfCluster S pad fs A.width A.height c).y +
      (regionOfCluster S pad fs A.width A.height c).h := by
  obtain ⟨e1, e2, e3, e4, e5, e6⟩ := cluster_extents hS hne hsub
  obtain ⟨s1, s2, s3, s4⟩ := squareBox_spec fs (rawBox S c)
  have r1 : (rawBox S c).1 = foldMinBy Prod.fst c * S := rfl
  have r2 : (rawBox S c).2.1 = foldMinBy Prod.snd c * S := rfl
  have r3 : (rawBox S c).2.2.1 =
      (foldMaxBy Prod.fst c - foldMinBy Prod.fst c + 1) * S := rfl
  have r4 : (rawBox S c).2.2.2 =
      (foldMaxBy Prod.snd c - foldMinBy Prod.snd c + 1) * S := rfl
  rw [r1] at s1
  rw [r2] at s2
  rw [r3] at s3
  rw [r4] at s4
  have hSnn : (0 : Int) ≤ S := by exact_mod_cast Nat.zero_le S
  have q1 : foldMinBy Prod.fst c * (S : Int) ≤ p.1 * S :=
    mul_le_mul_of_nonneg_right (foldMinBy_le Prod.fst hp) hSnn
  have q2 : (p.1 + 1) * (S : Int) ≤ (foldMaxBy Prod.fst c + 1) * S :=
    mul_le_mul_of_nonneg_right (by
      have h := le_foldMaxBy Prod.fst hp
      omega) hSnn
  have q3 : foldMinBy Prod.snd c * (S : Int) ≤ p.2 * S :=
    mul_le_mul_of_nonneg_right (foldMinBy_le Prod.snd hp) hSnn
  have q4 : (p.2 + 1) * (S : Int) ≤ (foldMaxBy Prod.snd c + 1) * S :=
    mul_le_mul_of_nonneg_right (by
      have h := le_foldMaxBy Prod.snd hp
      omega) hSnn
  have q5 : (foldMaxBy Prod.fst c + 1) * (S : Int) =
      foldMinBy Prod.fst c * S +
      (foldMaxBy Prod.fst c - foldMinBy Prod.fst c + 1) * S := by ring
  have q6 : (foldMaxBy Prod.snd c + 1) * (S : Int) =
      foldMinBy Prod.snd c * S +
      (foldMaxBy Prod.snd c - foldMinBy Prod.snd c + 1) * S := by ring
  rw [regionOfCluster_eq]
  dsimp only
  rw [s1, s2]
  omega

theorem scenB_blocks :
    changedBlockList imgScenA imgScenB 4 = [((2 : Int), (2 : Int))] := by
  decide

theorem clusterLoop_single (p : Block) : clusterLoop [p] = [[p]] := by
  simp [clusterLoop_cons, clusterLoop_nil, bfsLoop.eq_def, foundNeighbors,
    neighbors]

theorem scenB_regions :
    compare_images imgScenA imgScenB 4 0 false = .ok [⟨8, 8, 4, 4⟩] := by
  rw [@compare_images_ok imgScenA imgScenB 4 0 false rfl rfl (by decide),
    scenB_blocks, clusterLoop_single]
  exact congrArg Except.ok (by decide)

theorem scenC_regions :
    compare_images imgScenA imgScenB 4 2 false = .ok [⟨6, 6, 8, 8⟩] := by
  rw [@compare_images_ok imgScenA imgScenB 4 2 false rfl rfl (by decide),
    scenB_blocks, clusterLoop_single]
  exact congrArg Except.ok (by decide)

/-- C1: for every pair of equally-sized grayscale images, block size, padding
and forceSquare setting, every pixel of the (bounds-clamped) footprint of
every changed block is covered by some region returned by `compare_images` —
no changed block is ever dropped. -/
theorem c1_coverage (A B : Image) (S pad : Nat) (fs : Bool)
    (hS : 0 < S) (hw : A.width = B.width) (hh : A.height = B.height)
    (regions : List Region)
    (hok : compare_images A B S pad fs = .ok regions)
    (bx bY : Int) (hblk : (bx, bY) ∈ changedBlockList A B S)
    (px py : Int)
    (hpx1 : bx * S ≤ px) (hpx2 : px < (bx + 1) * S)
    (hpx3 : 0 ≤ px) (hpx4 : px < A.width)
    (hpy1 : bY * S ≤ py) (hpy2 : py < (bY + 1) * S)
    (hpy3 : 0 ≤ py) (hpy4 : py < A.height) :
    ∃ r ∈ regions, r.x ≤ px ∧ px < r.x + r.w ∧ r.y ≤ py ∧ py < r.y + r.h := by
  rw [compare_images_ok hw hh hS] at hok
  have hmap := Except.ok.inj hok
  obtain ⟨spec1, spec2, -, -⟩ :=
    clusterLoop_spec (changedBlockList A B S) (changedBlockList_nodup A B S)
  obtain ⟨c, hc, hbc⟩ := spec2 _ hblk
  obtain ⟨hne, hsub, -⟩ := spec1 c hc
  refine ⟨regionOfCluster S pad fs A.width A.height c, ?_, ?_⟩
  · rw [← hmap]
    exact List.mem_map_of_mem _ hc
  · exact regionOfCluster_covers hS hne hsub hbc hpx1 hpx2 hpx3 hpx4
      hpy1 hpy2 hpy3 hpy4

theorem c1_coverage_witness :
    ∃ r ∈ [Region.mk 8 8 4 4], r.x ≤ (8 : Int) ∧ (8 : Int) < r.x + r.w ∧
      r.y ≤ (8 : Int) ∧ (8 : Int) < r.y + r.h :=
  c1_coverage imgScenA imgScenB 4 0 false (by decide) rfl rfl
    [⟨8, 8, 4, 4⟩] scenB_regions 2 2 (by decide) 8 8
    (by decide) (by decide) (by decide) (by decide)
    (by decide) (by decide) (by decide) (by decide)

/-- C6: padding shrinks the origin by `padding` clamped at 0, sets the far
edge to the clamped origin plus the unpadded extent plus `2*padding`, and
clamps to the image bounds; in particular the Scenario B region (8,8,4,4)
with padding 2 on a 16×16 image becomes exactly (6,6,8,8). -/
theorem c6_padding_semantics :
    (∀ (padding width height : Nat) (b : Int × Int × Int × Int),
      padClampBox padding width height b =
        ⟨max 0 (b.1 - padding), max 0 (b.2.1 - padding),
         min (max 0 (b.1 - padding) + b.2.2.1 + 2 * padding) width -
           max 0 (b.1 - padding),
         min (max 0 (b.2.1 - padding) + b.2.2.2 + 2 * padding) height -
           max 0 (b.2.1 - padding)⟩)
    ∧ compare_images imgScenA imgScenB 4 2 false = .ok [⟨6, 6, 8, 8⟩] :=
  ⟨fun _ _ _ _ => rfl, scenC_regions⟩

/-- C7: every region returned by `compare_images` has strictly positive width
and height and lies fully inside `[0, width) × [0, height)`, for every input
pair, block size, padding and forceSquare setting. -/
theorem c7_region_bounds (A B : Image) (S pad : Nat) (fs : Bool)
    (hS : 0 < S) (hw : A.width = B.width) (hh : A.height = B.height)
    (regions : List Region)
    (hok : compare_images A B S pad fs = .ok regions)
    (r : Region) (hr : r ∈ regions) :
    0 < r.w ∧ 0 < r.h ∧ 0 ≤ r.x ∧ r.x + r.w ≤ A.width ∧
    0 ≤ r.y ∧ r.y + r.h ≤ A.height := by
  rw [compare_images_ok hw hh hS] at hok
  have hmap := Except.ok.inj hok
  rw [← hmap] at hr
  obtain ⟨c, hc, rfl⟩ := List.mem_map.1 hr
  obtain ⟨spec1, -, -, -⟩ :=
    clusterLoop_spec (changedBlockList A B S) (changedBlockList_nodup A B S)
  obtain ⟨hne, hsub, -⟩ := spec1 c hc
  obtain ⟨b1, b2, b3, b4, b5, b6⟩ := regionOfCluster_bounds hS hne hsub
  exact ⟨b2, b5, b1, b3, b4, b6⟩

theorem c7_region_bounds_witness :
    0 < (Region.mk 8 8 4 4).w ∧ 0 < (Region.mk 8 8 4 4).h ∧
    0 ≤ (Region.mk 8 8 4 4).x ∧
    (Region.mk 8 8 4 4).x + (Region.mk 8 8 4 4).w ≤ imgScenA.width ∧
    0 ≤ (Region.mk 8 8 4 4).y ∧
    (Region.mk 8 8 4 4).y + (Region.mk 8 8 4 4).h ≤ imgScenA.height :=
  c7_region_bounds imgScenA imgScenB 4 0 false (by decide) rfl rfl
    [⟨8, 8, 4, 4⟩] scenB_regions ⟨8, 8, 4, 4⟩ (List.mem_singleton.2 rfl)

/-- C2: for every non-empty changed-block set, `compare_images` returns
exactly one region per 4-connected component (each cluster is a component,
every component occurs exactly once, regions are the clusters' regions), and
before padding and squaring each cluster's pixel rectangle is
`(minBx*S, minBy*S, (maxBx-minBx+1)*S, (maxBy-minBy+1)*S)`; in particular in
Scenario B the only changed block is (2,2) and the only region is
(8,8,4,4). -/
theorem c2_one_region_per_component (A B : Image) (S pad : Nat) (fs : Bool)
    (hS : 0 < S) (hw : A.width = B.width) (hh : A.height = B.height)
    (regions : List Region)
    (hok : compare_images A B S pad fs = .ok regions)
    (hne : changedBlockList A B S ≠ []) :
    OneRegionPerComponent A (changedBlockList A B S) S pad fs regions ∧
    changedBlockList imgScenA imgScenB 4 = [((2 : Int), (2 : Int))] ∧
    compare_images imgScenA imgScenB 4 0 false = .ok [⟨8, 8, 4, 4⟩] := by
  refine ⟨?_, scenB_blocks, scenB_regions⟩
  clear hne
  rw [compare_images_ok hw hh hS] at hok
  have hmap := Except.ok.inj hok
  obtain ⟨spec1, -, spec3, spec4⟩ :=
    clusterLoop_spec (changedBlockList A B S) (changedBlockList_nodup A B S)
  refine ⟨clusterLoop (changedBlockList A B S), hmap.symm,
    fun c hc => ⟨(spec1 c hc).1, (spec1 c hc).2.2⟩, spec3, spec4, ?_⟩
  intro c hc
  have hnec := (spec1 c hc).1
  obtain ⟨q1, hq1, hq1e⟩ := exists_foldMinBy_eq Prod.fst hnec
  obtain ⟨q2, hq2, hq2e⟩ := exists_foldMaxBy_eq Prod.fst hnec
  obtain ⟨q3, hq3, hq3e⟩ := exists_foldMinBy_eq Prod.snd hnec
  obtain ⟨q4, hq4, hq4e⟩ := exists_foldMaxBy_eq Prod.snd hnec
  exact ⟨foldMinBy Prod.fst c, foldMaxBy Prod.fst c,
    foldMinBy Prod.snd c, foldMaxBy Prod.snd c,
    fun p hp => ⟨foldMinBy_le Prod.fst hp, le_foldMaxBy Prod.fst hp,
      foldMinBy_le Prod.snd hp, le_foldMaxBy Prod.snd hp⟩,
    ⟨q1, hq1, hq1e.symm⟩, ⟨q2, hq2, hq2e.symm⟩,
    ⟨q3, hq3, hq3e.symm⟩, ⟨q4, hq4, hq4e.symm⟩, rfl⟩

theorem c2_one_region_per_component_witness :
    OneRegionPerComponent imgScenA (changedBlockList imgScenA imgScenB 4)
      4 0 false [⟨8, 8, 4, 4⟩] ∧
    changedBlockList imgScenA imgScenB 4 = [((2 : Int), (2 : Int))] ∧
    compare_images imgScenA imgScenB 4 0 false = .ok [⟨8, 8, 4, 4⟩] :=
  c2_one_region_per_component imgScenA imgScenB 4 0 false (by decide) rfl rfl
    [⟨8, 8, 4, 4⟩] scenB_regions (by decide)

/-- C8 counterexample: the claim says a call on images of equal dimensions
never raises for any block size; but with block size 0 and a single differing
pixel, Python's `x // block_size` raises `ZeroDivisionError` although the
dimensions agree. -/
theorem c8_counterexample :
    imgDot0.width = imgDot255.width ∧ imgDot0.height = imgDot255.height ∧
    compare_images imgDot0 imgDot255 0 3 false =
      .error .ZeroDivisionError :=
  ⟨rfl, rfl, rfl⟩

/-- C8 (amended): `compare_images` fails with `SizeMismatch` iff the two
input images have different dimensions; when dimensions are equal it never
raises for any positive block size, padding or forceSquare setting (raising
`ZeroDivisionError`, not `SizeMismatch`, when a differing pixel meets block
size 0). -/
theorem c8_size_mismatch :
    (∀ (a b : Image) (S pad : Nat) (fs : Bool),
      compare_images a b S pad fs = .error .SizeMismatch ↔
        ¬ (a.width = b.width ∧ a.height = b.height)) ∧
    (∀ (a b : Image) (S pad : Nat) (fs : Bool),
      a.width = b.width → a.height = b.height → 0 < S →
      ∃ rs, compare_images a b S pad fs = .ok rs) := by
  constructor
  · intro a b S pad fs
    unfold compare_images
    by_cases hdim : a.width = b.width ∧ a.height = b.height
    · rw [if_neg (not_not_intro hdim)]
      by_cases hz : S = 0 ∧ imagesDiffer a b = true
      · rw [if_pos hz]
        simp [hdim.1, hdim.2]
      · rw [if_neg hz]
        simp [hdim.1, hdim.2]
    · rw [if_pos hdim]
      simp [hdim]
  · intro a b S pad fs hw hh hS
    exact ⟨_, compare_images_ok hw hh hS⟩

theorem c8_size_mismatch_witness :
    ∃ rs, compare_images imgScenA imgScenB 8 3 false = .ok rs :=
  c8_size_mismatch.2 imgScenA imgScenB 8 3 false rfl rfl (by decide)

/-- C9: encoding a region fails with `OutOfBounds` exactly when the region
does not intersect the panel after clamping, and such a failing region in a
batch does not abort processing: the remaining regions are still encoded and
transmitted unchanged. -/
theorem c9_out_of_bounds (base : Image) (pw ph : Nat) (r : Region) :
    (encodeRegion base r pw ph = .error .OutOfBounds ↔
      max 0 (min (r.x + r.w) (pw : Int)) ≤ max 0 (min r.x (pw : Int)) ∨
      max 0 (min (r.y + r.h) (ph : Int)) ≤ max 0 (min r.y (ph : Int))) ∧
    (∀ pre post : List Region,
      encodeRegion base r pw ph = .error .OutOfBounds →
      partial_update base pw ph (pre ++ r :: post) =
        partial_update base pw ph (pre ++ post)) := by
  have e1 : ∀ z : Int, z.fdiv 8 = z / 8 :=
    fun z => Int.fdiv_eq_ediv z (by norm_num)
  constructor
  · simp only [encodeRegion, align_to_bytes]
    split_ifs with h1 h2 h3
    · simp only [true_iff]
      omega
    · simp only [true_iff]
      omega
    · rw [e1, e1] at h3
      exact absurd h3 (by omega)
    · constructor
      · intro hcon
        exact hcon.elim
      · intro hcon
        omega
  · intro pre post herr
    simp [partial_update, List.filterMap_append, List.filterMap_cons, herr,
      Except.toOption]

theorem rawPack_succ (base : Image) (ax0 y0 : Int) (wB rows : Nat) :
    rawPack base ax0 y0 wB (rows + 1) =
      rawPack base ax0 y0 wB rows ++
        (List.range wB).map
          (fun bi => packByte base (ax0.toNat + 8 * bi) (y0.toNat + rows)) := by
  unfold rawPack
  rw [List.range_succ, List.flatMap_append]
  simp

theorem rawPack_length (base : Image) (ax0 y0 : Int) (wB rows : Nat) :
    (rawPack base ax0 y0 wB rows).length = rows * wB := by
  induction rows with
  | zero => simp [rawPack]
  | succ n ih =>
    rw [rawPack_succ, List.length_append, ih, List.length_map,
      List.length_range]
    ring

theorem rawPack_getD (base : Image) (ax0 y0 : Int) (wB rows row bi : Nat)
    (hrow : row < rows) (hbi : bi < wB) :
    (rawPack base ax0 y0 wB rows).getD (row * wB + bi) 0 =
      packByte base (ax0.toNat + 8 * bi) (y0.toNat + row) := by
  induction rows with
  | zero => omega
  | succ n ih =>
    rw [rawPack_succ]
    by_cases hr : row < n
    · rw [List.getD_append]
      · exact ih hr
      · rw [rawPack_length]
        have h1 : row * wB + wB ≤ n * wB := by
          have h2 : (row + 1) * wB ≤ n * wB :=
            Nat.mul_le_mul_right wB (by omega)
          calc row * wB + wB = (row + 1) * wB := by ring
          _ ≤ n * wB := h2
        omega
    · have hre : row = n := by omega
      subst hre
      rw [List.getD_append_right _ _ _ _ (by rw [rawPack_length]; omega)]
      rw [rawPack_length]
      have hidx : row * wB + bi - row * wB = bi := by omega
      rw [hidx, List.getD_eq_getElem _ _ (by simpa using hbi),
        List.getElem_map, List.getElem_range]

theorem packByte_eq (base : Image) (x y : Nat) :
    packByte base x y =
      (if 127 < base.pix (x + 0) y then 1 else 0) * 128 +
      (if 127 < base.pix (x + 1) y then 1 else 0) * 64 +
      (if 127 < base.pix (x + 2) y then 1 else 0) * 32 +
      (if 127 < base.pix (x + 3) y then 1 else 0) * 16 +
      (if 127 < base.pix (x + 4) y then 1 else 0) * 8 +
      (if 127 < base.pix (x + 5) y then 1 else 0) * 4 +
      (if 127 < base.pix (x + 6) y then 1 else 0) * 2 +
      (if 127 < base.pix (x + 7) y then 1 else 0) := by
  unfold packByte
  rw [show List.range 8 = [0, 1, 2, 3, 4, 5, 6, 7] from rfl]
  simp only [List.foldl_cons, List.foldl_nil]
  ring

theorem testBit_byte8 (b0 b1 b2 b3 b4 b5 b6 b7 : Nat)
    (h0 : b0 ≤ 1) (h1 : b1 ≤ 1) (h2 : b2 ≤ 1) (h3 : b3 ≤ 1)
    (h4 : b4 ≤ 1) (h5 : b5 ≤ 1) (h6 : b6 ≤ 1) (h7 : b7 ≤ 1) :
    ((b0 * 128 + b1 * 64 + b2 * 32 + b3 * 16 + b4 * 8 + b5 * 4 + b6 * 2 +
        b7).testBit 7 = decide (b0 = 1)) ∧
    ((b0 * 128 + b1 * 64 + b2 * 32 + b3 * 16 + b4 * 8 + b5 * 4 + b6 * 2 +
        b7).testBit 6 = decide (b1 = 1)) ∧
    ((b0 * 128 + b1 * 64 + b2 * 32 + b3 * 16 + b4 * 8 + b5 * 4 + b6 * 2 +
        b7).testBit 5 = decide (b2 = 1)) ∧
    ((b0 * 128 + b1 * 64 + b2 * 32 + b3 * 16 + b4 * 8 + b5 * 4 + b6 * 2 +
        b7).testBit 4 = decide (b3 = 1)) ∧
    ((b0 * 128 + b1 * 64 + b2 * 32 + b3 * 16 + b4 * 8 + b5 * 4 + b6 * 2 +
        b7).testBit 3 = decide (b4 = 1)) ∧
    ((b0 * 128 + b1 * 64 + b2 * 32 + b3 * 16 + b4 * 8 + b5 * 4 + b6 * 2 +
        b7).testBit 2 = decide (b5 = 1)) ∧
    ((b0 * 128 + b1 * 64 + b2 * 32 + b3 * 16 + b4 * 8 + b5 * 4 + b6 * 2 +
        b7).testBit 1 = decide (b6 = 1)) ∧
    ((b0 * 128 + b1 * 64 + b2 * 32 + b3 * 16 + b4 * 8 + b5 * 4 + b6 * 2 +
        b7).testBit 0 = decide (b7 = 1)) := by
  refine ⟨?_, ?_, ?_, ?_, ?_, ?_, ?_, ?_⟩ <;>
    rw [Nat.testBit_to_div_mod, decide_eq_decide] <;> omega

theorem testBit_xor255 (n k : Nat) (hk : k < 8) :
    (n ^^^ 255).testBit k = !(n.testBit k) := by
  rw [Nat.testBit_xor]
  have h255 : Nat.testBit 255 k = true := by interval_cases k <;> decide
  rw [h255]
  cases n.testBit k <;> rfl

/-- Bit `7-j` of an inverted packed byte is set iff the pixel is dark. -/
theorem bitflip_eq (v : Nat) :
    (!decide ((if 127 < v then 1 else 0) = 1)) = decide (v ≤ 127) := by
  by_cases h : 127 < v <;> simp [h] <;> omega

/-- The success anatomy of the partial-update per-region encoder. -/
theorem encodeRegion_spec (base : Image) (pw ph : Nat) (r : Region)
    (e : Encoded) (hok : encodeRegion base r pw ph = .ok e) :
    EncodedSpec base pw ph r e := by
  have efd : ∀ z : Int, z.fdiv 8 = z / 8 :=
    fun z => Int.fdiv_eq_ediv z (by norm_num)
  simp only [encodeRegion, align_to_bytes] at hok
  split_ifs at hok with h1 h2 h3
  obtain rfl := (Except.ok.inj hok).symm
  refine ⟨rfl, rfl, rfl, rfl, Int.mul_emod_left _ _, Int.mul_emod_left _ _,
    ?_, ?_, rfl, ?_, ?_⟩
  · dsimp only
    simp only [efd]
    omega
  · dsimp only
    simp only [efd]
    omega
  · dsimp only
    rw [List.length_map, rawPack_length]
    ring
  · intro row bi j hrow hbi hj
    dsimp only at hrow hbi ⊢
    have hidxlt : row * (((max 0 (min (r.x + r.w) (pw : Int)) + 7).fdiv 8 * 8
        - (max 0 (min r.x (pw : Int))).fdiv 8 * 8).fdiv 8).toNat + bi <
        (max 0 (min (r.y + r.h) (ph : Int)) -
          max 0 (min r.y (ph : Int))).toNat *
        (((max 0 (min (r.x + r.w) (pw : Int)) + 7).fdiv 8 * 8
        - (max 0 (min r.x (pw : Int))).fdiv 8 * 8).fdiv 8).toNat := by
      have h4 := Nat.mul_le_mul_right
        ((((max 0 (min (r.x + r.w) (pw : Int)) + 7).fdiv 8 * 8
          - (max 0 (min r.x (pw : Int))).fdiv 8 * 8).fdiv 8).toNat)
        (show row + 1 ≤ (max 0 (min (r.y + r.h) (ph : Int)) -
          max 0 (min r.y (ph : Int))).toNat by omega)
      calc row * (((max 0 (min (r.x + r.w) (pw : Int)) + 7).fdiv 8 * 8
            - (max 0 (min r.x (pw : Int))).fdiv 8 * 8).fdiv 8).toNat + bi
          < (row + 1) * (((max 0 (min (r.x + r.w) (pw : Int)) + 7).fdiv 8 * 8
            - (max 0 (min r.x (pw : Int))).fdiv 8 * 8).fdiv 8).toNat := by
            have := hbi
            nlinarith [hbi]
      _ ≤ _ := h4
    rw [List.getD_eq_getElem _ _ (by
        rw [List.length_map, rawPack_length]
        exact hidxlt),
      List.getElem_map,
      ← List.getD_eq_getElem _ 0 (by
        rw [rawPack_length]
        exact hidxlt),
      rawPack_getD _ _ _ _ _ _ _ hrow hbi,
      packByte_eq,
      testBit_xor255 _ _ (by omega)]
    obtain ⟨t7, t6, t5, t4, t3, t2, t1, t0⟩ := testBit_byte8
      (if 127 < base.pix
        (((max 0 (min r.x (pw : Int))).fdiv 8 * 8).toNat + 8 * bi + 0)
        ((max 0 (min r.y (ph : Int))).toNat + row) then 1 else 0)
      (if 127 < base.pix
        (((max 0 (min r.x (pw : Int))).fdiv 8 * 8).toNat + 8 * bi + 1)
        ((max 0 (min r.y (ph : Int))).toNat + row) then 1 else 0)
      (if 127 < base.pix
        (((max 0 (min r.x (pw : Int))).fdiv 8 * 8).toNat + 8 * bi + 2)
        ((max 0 (min r.y (ph : Int))).toNat + row) then 1 else 0)
      (if 127 < base.pix
        (((max 0 (min r.x (pw : Int))).fdiv 8 * 8).toNat + 8 * bi + 3)
        ((max 0 (min r.y (ph : Int))).toNat + row) then 1 else 0)
      (if 127 < base.pix
        (((max 0 (min r.x (pw : Int))).fdiv 8 * 8).toNat + 8 * bi + 4)
        ((max 0 (min r.y (ph : Int))).toNat + row) then 1 else 0)
      (if 127 < base.pix
        (((max 0 (min r.x (pw : Int))).fdiv 8 * 8).toNat + 8 * bi + 5)
        ((max 0 (min r.y (ph : Int))).toNat + row) then 1 else 0)
      (if 127 < base.pix
        (((max 0 (min r.x (pw : Int))).fdiv 8 * 8).toNat + 8 * bi + 6)
        ((max 0 (min r.y (ph : Int))).toNat + row) then 1 else 0)
      (if 127 < base.pix
        (((max 0 (min r.x (pw : Int))).fdiv 8 * 8).toNat + 8 * bi + 7)
        ((max 0 (min r.y (ph : Int))).toNat + row) then 1 else 0)
      (by split_ifs <;> omega) (by split_ifs <;> omega)
      (by split_ifs <;> omega) (by split_ifs <;> omega)
      (by split_ifs <;> omega) (by split_ifs <;> omega)
      (by split_ifs <;> omega) (by split_ifs <;> omega)
    interval_cases j
    · rw [show (7 : Nat) - 0 = 7 from rfl, t7]
      exact bitflip_eq _
    · rw [show (7 : Nat) - 1 = 6 from rfl, t6]
      exact bitflip_eq _
    · rw [show (7 : Nat) - 2 = 5 from rfl, t5]
      exact bitflip_eq _
    · rw [show (7 : Nat) - 3 = 4 from rfl, t4]
      exact bitflip_eq _
    · rw [show (7 : Nat) - 4 = 3 from rfl, t3]
      exact bitflip_eq _
    · rw [show (7 : Nat) - 5 = 2 from rfl, t2]
      exact bitflip_eq _
    · rw [show (7 : Nat) - 6 = 1 from rfl, t1]
      exact bitflip_eq _
    · rw [show (7 : Nat) - 7 = 0 from rfl, t0]
      exact bitflip_eq _

theorem encode_scenarioE (base : Image) (pw ph : Nat)
    (hpw : 24 ≤ pw) (hph : 8 ≤ ph) :
    ∃ e, encodeRegion base ⟨3, 0, 10, 8⟩ pw ph = .ok e ∧
      e.x0 = 0 ∧ e.y0 = 0 ∧ e.x1 = 16 ∧ e.y1 = 8 ∧ e.bytes.length = 16 := by
  have hpwi : (24 : Int) ≤ pw := by exact_mod_cast hpw
  have hphi : (8 : Int) ≤ ph := by exact_mod_cast hph
  have hx0 : max 0 (min ((3 : Int)) (pw : Int)) = 3 := by omega
  have hx1 : max 0 (min ((3 : Int) + 10) (pw : Int)) = 13 := by omega
  have hy0 : max 0 (min ((0 : Int)) (ph : Int)) = 0 := by omega
  have hy1 : max 0 (min ((0 : Int) + 8) (ph : Int)) = 8 := by omega
  refine ⟨⟨(3 : Int).fdiv 8 * 8, 0, ((13 : Int) + 7).fdiv 8 * 8, 8,
    (rawPack base ((3 : Int).fdiv 8 * 8) 0
      (((((13 : Int) + 7).fdiv 8 * 8 - (3 : Int).fdiv 8 * 8)).fdiv 8).toNat
      ((8 : Int) - 0).toNat).map (fun v => v ^^^ 255)⟩, ?_, rfl,
    rfl, rfl, rfl, ?_⟩
  · simp only [encodeRegion, align_to_bytes]
    rw [hx0, hx1, hy0, hy1]
    rw [if_neg (by decide), if_neg (by decide), if_neg (by decide)]
  · show (List.map (fun v => v ^^^ 255) (rawPack base ((3 : Int).fdiv 8 * 8) 0
      (((((13 : Int) + 7).fdiv 8 * 8 - (3 : Int).fdiv 8 * 8)).fdiv 8).toNat
      ((8 : Int) - 0).toNat)).length = 16
    rw [List.length_map, rawPack_length]
    decide

/-- C3: for every region that intersects the panel after clamping, the
encoder aligns `alignedX = floor(x0/8)*8`, `alignedX1 = ceil(x1/8)*8` (both
multiples of 8, containing the clamped region), thresholds at 127, packs 8
pixels per byte MSB-first row-major into exactly
`(alignedX1-alignedX)/8 * (y1-y0)` bytes, and XORs every byte with 0xFF; in
particular region (3,0,10,8) on a panel of width ≥ 24 is aligned to
(0,0,16,8) and packed into 16 bytes, each bit-inverted relative to the raw
threshold output. -/
theorem c3_encoder :
    (∀ (base : Image) (pw ph : Nat) (r : Region) (e : Encoded),
      encodeRegion base r pw ph = .ok e → EncodedSpec base pw ph r e) ∧
    (∀ (base : Image) (pw ph : Nat), 24 ≤ pw → 8 ≤ ph →
      ∃ e, encodeRegion base ⟨3, 0, 10, 8⟩ pw ph = .ok e ∧
        e.x0 = 0 ∧ e.y0 = 0 ∧ e.x1 = 16 ∧ e.y1 = 8 ∧ e.bytes.length = 16) :=
  ⟨encodeRegion_spec, encode_scenarioE⟩

theorem c3_encoder_witness :
    EncodedSpec imgScenB 24 8 ⟨3, 0, 10, 8⟩
      ⟨0, 0, 16, 8, List.replicate 16 255⟩ ∧
    (∃ e, encodeRegion imgScenB ⟨3, 0, 10, 8⟩ 24 8 = .ok e ∧
      e.x0 = 0 ∧ e.y0 = 0 ∧ e.x1 = 16 ∧ e.y1 = 8 ∧ e.bytes.length = 16) :=
  ⟨c3_encoder.1 imgScenB 24 8 ⟨3, 0, 10, 8⟩ ⟨0, 0, 16, 8,
      List.replicate 16 255⟩ rfl,
    c3_encoder.2 imgScenB 24 8 (by decide) (by decide)⟩

theorem c9_out_of_bounds_witness :
    encodeRegion imgScenA ⟨100, 0, 4, 4⟩ 16 16 = .error .OutOfBounds ∧
    partial_update imgScenA 16 16
      [⟨0, 0, 8, 1⟩, ⟨100, 0, 4, 4⟩, ⟨0, 8, 8, 1⟩] =
      partial_update imgScenA 16 16 [⟨0, 0, 8, 1⟩, ⟨0, 8, 8, 1⟩] := by
  have herr : encodeRegion imgScenA ⟨100, 0, 4, 4⟩ 16 16 =
      .error .OutOfBounds :=
    (c9_out_of_bounds imgScenA 16 16 ⟨100, 0, 4, 4⟩).1.2 (by decide)
  exact ⟨herr, (c9_out_of_bounds imgScenA 16 16 ⟨100, 0, 4, 4⟩).2
    [⟨0, 0, 8, 1⟩] [⟨0, 8, 8, 1⟩] herr⟩

theorem classifierBand_width (t er : Nat) (reg : Image) :
    (classifierBand t er reg).width = reg.width := by
  unfold classifierBand
  split_ifs <;> rfl

theorem classifierBand_height (t er : Nat) (reg : Image) :
    (classifierBand t er reg).height = reg.height := by
  unfold classifierBand
  split_ifs <;> rfl

/-- Counting over `getdata` is the positional pixel count. -/
theorem countPos_eq_countPixels (img : Image) :
    countPos img = countPixels img.width img.height
      (fun i j => decide (0 < img.pix i j)) := by
  unfold countPos countPixels getdata
  rw [List.filter_flatMap, List.length_flatMap]
  congr 1
  refine List.map_congr_left ?_
  intro j hj
  simp only [Function.comp_apply, List.filter_map, List.length_map]
  rfl

theorem countPixels_congr_in {w h : Nat} {p q : Nat → Nat → Bool}
    (hpq : ∀ i j, i < w → j < h → p i j = q i j) :
    countPixels w h p = countPixels w h q := by
  unfold countPixels
  congr 1
  refine List.map_congr_left ?_
  intro j hj
  refine congrArg _ (List.filter_congr ?_)
  intro i hi
  exact hpq i j (List.mem_range.1 hi) (List.mem_range.1 hj)

/-- Pointwise characterization of the suspicious-pixel mask: the product of
the mid-gray mask and the outside-of-edge-band mask is positive exactly on
mid-gray pixels outside the band. -/
theorem suspicious_pointwise (band v delta : Nat) :
    decide (0 < muldiv255 (if delta ≤ v ∧ v ≤ 255 - delta then 255 else 0)
      (if 0 < band then 0 else 255)) =
    decide (band = 0 ∧ delta ≤ v ∧ v + delta ≤ 255) := by
  by_cases h1 : delta ≤ v ∧ v ≤ 255 - delta <;> by_cases h2 : 0 < band <;>
    simp only [h1, h2, if_true, if_false, if_pos, if_neg, decide_eq_decide,
      muldiv255] <;> norm_num <;> omega

/-- Pointwise characterization of the outside-of-edge-band mask. -/
theorem outside_pointwise (band : Nat) :
    decide (0 < (if 0 < band then 0 else 255)) = decide (band = 0) := by
  by_cases h2 : 0 < band <;> simp [h2] <;> omega

theorem countPos_outside (reg band : Image)
    (hw : band.width = reg.width) (hh : band.height = reg.height) :
    countPos (pointOutside band) =
      countPixels reg.width reg.height
        (fun i j => decide (band.pix i j = 0)) := by
  rw [countPos_eq_countPixels,
    show (pointOutside band).width = band.width from rfl,
    show (pointOutside band).height = band.height from rfl, hw, hh]
  exact countPixels_congr_in fun i j _ _ => outside_pointwise (band.pix i j)

theorem countPos_suspicious (reg band : Image) (delta : Nat)
    (hw : band.width = reg.width) (hh : band.height = reg.height) :
    countPos (chopsMultiply (pointMidGray delta reg) (pointOutside band)) =
      countPixels reg.width reg.height
        (fun i j => decide (band.pix i j = 0 ∧ delta ≤ reg.pix i j ∧
          reg.pix i j + delta ≤ 255)) := by
  rw [countPos_eq_countPixels]
  have hw2 : (chopsMultiply (pointMidGray delta reg)
      (pointOutside band)).width = reg.width := rfl
  have hh2 : (chopsMultiply (pointMidGray delta reg)
      (pointOutside band)).height = reg.height := rfl
  rw [hw2, hh2]
  exact countPixels_congr_in fun i j _ _ =>
    suspicious_pointwise (band.pix i j) (reg.pix i j) delta

theorem countPixels_false (w h : Nat) :
    countPixels w h (fun _ _ => false) = 0 := by
  simp [countPixels]

/-- Generic characterization of the classifier as a fraction test (shared by
the fraction and binary-safety analyses). -/
theorem classifier_fraction_spec (img : Image) (bbox : Region)
    (threshold delta edge_radius : Nat) (min_fraction : ℚ)
    (hwpos : 0 < bbox.w) (hhpos : 0 < bbox.h)
    (hx : max 0 bbox.x < min (max 0 bbox.x + bbox.w) img.width)
    (hy : max 0 bbox.y < min (max 0 bbox.y + bbox.h) img.height) :
    ClassifierFractionSpec img bbox threshold delta edge_radius
      min_fraction := by
  unfold ClassifierFractionSpec
  simp only [bbox_has_non_binary_pixels]
  rw [if_neg (by omega), if_neg (by omega)]
  have hbw := classifierBand_width threshold edge_radius (cropClamped img bbox)
  have hbh := classifierBand_height threshold edge_radius (cropClamped img bbox)
  rw [countPos_outside (cropClamped img bbox) _ hbw hbh,
    countPos_suspicious (cropClamped img bbox) _ delta hbw hbh]
  split_ifs with hv
  · simp [hv]
  · rw [decide_eq_true_eq]
    constructor
    · intro h
      exact ⟨Nat.pos_of_ne_zero hv, h⟩
    · intro h
      exact h.2

/-- C4: the classifier flags a (non-degenerate) region as containing
meaningful non-binary content iff the fraction of mid-gray pixels outside
the expanded edge band, among pixels outside the band, reaches
`min_fraction`; an all-edge-band region (denominator zero) is safe. -/
theorem c4_classifier_fraction (img : Image) (bbox : Region)
    (threshold delta edge_radius : Nat) (min_fraction : ℚ)
    (hwpos : 0 < bbox.w) (hhpos : 0 < bbox.h)
    (hx : max 0 bbox.x < min (max 0 bbox.x + bbox.w) img.width)
    (hy : max 0 bbox.y < min (max 0 bbox.y + bbox.h) img.height) :
    ClassifierFractionSpec img bbox threshold delta edge_radius
      min_fraction :=
  classifier_fraction_spec img bbox threshold delta edge_radius min_fraction
    hwpos hhpos hx hy

theorem c4_classifier_fraction_witness :
    ClassifierFractionSpec imgBlack2 ⟨0, 0, 2, 2⟩ 127 40 2 (1 / 100) :=
  c4_classifier_fraction imgBlack2 ⟨0, 0, 2, 2⟩ 127 40 2 (1 / 100)
    (by decide) (by decide) (by decide) (by decide)

/-- C5 counterexample: with `delta = 0` (a legal parameter choice), a region
whose pixels are all exactly 0 is classified as containing non-binary
content (`true` = unsafe), refuting "safe regardless of parameters". -/
theorem c5_counterexample :
    bbox_has_non_binary_pixels imgBlack2 ⟨0, 0, 2, 2⟩ 127 0 2 (1 / 100) =
      true := by
  have h := classifier_fraction_spec imgBlack2 ⟨0, 0, 2, 2⟩ 127 0 2 (1 / 100)
    (by decide) (by decide) (by decide) (by decide)
  unfold ClassifierFractionSpec at h
  rw [h]
  refine ⟨by decide, ?_⟩
  have key : ∀ X Y : Nat, X = 4 → Y = 4 →
      (1 / 100 : ℚ) ≤ (X : ℚ) / (Y : ℚ) := by
    intro X Y hX hY
    rw [hX, hY]
    norm_num
  exact key _ _ (by decide) (by decide)

/-- C5 (amended): a region whose every pixel is exactly 0 or 255 is always
classified binary-safe, for every threshold and edgeRadius, provided
`delta ≥ 1` and `min_fraction > 0` (with `delta = 0` every pixel counts as
mid-gray, and with `min_fraction ≤ 0` the zero fraction already reaches the
threshold, so the code flags even pure black-and-white regions). -/
theorem c5_binary_safe (img : Image) (bbox : Region)
    (threshold delta edge_radius : Nat) (min_fraction : ℚ)
    (hdelta : 1 ≤ delta) (hmf : 0 < min_fraction)
    (hbin : ∀ i, i < (cropClamped img bbox).width →
      ∀ j, j < (cropClamped img bbox).height →
      (cropClamped img bbox).pix i j = 0 ∨
        (cropClamped img bbox).pix i j = 255) :
    bbox_has_non_binary_pixels img bbox threshold delta edge_radius
      min_fraction = false := by
  simp only [bbox_has_non_binary_pixels]
  split_ifs with h1 h2 h3
  · rfl
  · rfl
  · rfl
  · have hbw := classifierBand_width threshold edge_radius
      (cropClamped img bbox)
    have hbh := classifierBand_height threshold edge_radius
      (cropClamped img bbox)
    have hsusp : countPos (chopsMultiply
        (pointMidGray delta (cropClamped img bbox))
        (pointOutside (classifierBand threshold edge_radius
          (cropClamped img bbox)))) = 0 := by
      rw [countPos_suspicious (cropClamped img bbox) _ delta hbw hbh]
      have hcongr : countPixels (cropClamped img bbox).width
          (cropClamped img bbox).height
          (fun i j => decide ((classifierBand threshold edge_radius
            (cropClamped img bbox)).pix i j = 0 ∧
            delta ≤ (cropClamped img bbox).pix i j ∧
            (cropClamped img bbox).pix i j + delta ≤ 255)) =
          countPixels (cropClamped img bbox).width
            (cropClamped img bbox).height (fun _ _ => false) :=
        countPixels_congr_in (fun i j hi hj => by
          rcases hbin i hi j hj with h | h <;> rw [h] <;> simp <;> omega)
      rw [hcongr, countPixels_false]
    rw [hsusp]
    apply decide_eq_false
    intro hle
    rw [Nat.cast_zero, zero_div] at hle
    exact absurd (lt_of_lt_of_le hmf hle) (lt_irrefl 0)

theorem c5_binary_safe_witness :
    bbox_has_non_binary_pixels imgBlack2 ⟨0, 0, 2, 2⟩ 127 40 2 (1 / 100) =
      false :=
  c5_binary_safe imgBlack2 ⟨0, 0, 2, 2⟩ 127 40 2 (1 / 100)
    (by decide) (by norm_num) (by decide)

/-- C10 counterexample: on a degenerate region the classifier does not fail
with an `EmptyRegion` error — no such error exists in the code; it returns
the ordinary "no non-binary content" verdict (`false`, binary-safe)
directly. -/
theorem c10_counterexample :
    bbox_has_non_binary_pixels imgBlack2 ⟨0, 0, 0, 5⟩ 127 40 2 (1 / 100) =
      false := by
  decide

/-- C10 (amended): when the region clamped to the image bounds is degenerate
(zero width or height), the classifier itself returns binary-safe (`false`)
without raising; callers therefore see such a region as binary-safe. -/
theorem c10_degenerate_safe (img : Image) (bbox : Region)
    (threshold delta edge_radius : Nat) (min_fraction : ℚ)
    (hdeg : bbox.w ≤ 0 ∨ bbox.h ≤ 0 ∨
      min (max 0 bbox.x + bbox.w) img.width ≤ max 0 bbox.x ∨
      min (max 0 bbox.y + bbox.h) img.height ≤ max 0 bbox.y) :
    bbox_has_non_binary_pixels img bbox threshold delta edge_radius
      min_fraction = false := by
  simp only [bbox_has_non_binary_pixels]
  split_ifs with h1 h2 <;> first | rfl | omega

theorem c10_degenerate_safe_witness :
    bbox_has_non_binary_pixels imgBlack2 ⟨0, 0, 0, 5⟩ 127 40 2 (1 / 100) =
      false :=
  c10_degenerate_safe imgBlack2 ⟨0, 0, 0, 5⟩ 127 40 2 (1 / 100) (by decide)

end Muure
